import Mathlib

/-!
# Verification of the xcelerator-alpha-strategy core

Shallow embedding of the repository's capital-allocation planner
(`src/logic/planner.py`), portfolio classifier (`src/logic/strategy.py`)
and simulated broker ledger (`src/broker/backtest.py`), together with
theorems settling the frozen specification claims.

Modelling conventions:
* Python floats are modelled as exact rationals (`ℚ`).  The claims under
  scrutiny are about the allocation/ledger arithmetic, not about binary
  floating point.
* Python `round(x, 2)` (banker's rounding to two decimals) is modelled
  faithfully by `pyRound2` below.
* Python `int(a // b)` is `⌊a / b⌋ : ℤ` (float floor division followed by
  `int`, which is exact on the floored value).
* Dictionaries such as `latest_close` are modelled as association lists
  with first-match lookup.  `rank_map`, which the source builds from the
  `ranked_df` frame purely for the presentation-only `Rank` column, is
  passed as a `String → Option ℤ` parameter (`none` = `"N/A"`).
* `pandas.sort_values` uses an unstable quicksort, so its order on tied
  keys is unspecified; we model the sorts with stable insertion sorts
  and never state anything that depends on the order of tied keys.
* The presentation-only `Weight %` column and the final cosmetic row
  sort of the rebalance plan are not modelled: every claim is about
  sums over rows, membership of rows, or per-row fields, all of which
  are insensitive to row order.
-/

/-! ## Python numeric primitives -/

/-- Round-half-to-even on rationals (the rounding used by Python's
`round` builtin): nearest integer, ties to the even one. -/
def roundHalfEven (x : ℚ) : ℤ :=
  let f := ⌊x⌋
  if x - f < 1/2 then f
  else if x - f > 1/2 then f + 1
  else if Even f then f else f + 1

/-- Python's `round(x, 2)`: banker's rounding at two decimal places. -/
def pyRound2 (x : ℚ) : ℚ := (roundHalfEven (100 * x) : ℚ) / 100

/-- `x` is a whole number of paise (an exact two-decimal quantity), the
form every real-world price and invested value takes. -/
def TwoDec (x : ℚ) : Prop := (100 * x).den = 1

instance : DecidablePred TwoDec := fun x => inferInstanceAs (Decidable ((100*x).den = 1))

theorem roundHalfEven_intCast (k : ℤ) : roundHalfEven (k : ℚ) = k := by
  unfold roundHalfEven
  have h1 : ⌊(k : ℚ)⌋ = k := Int.floor_intCast k
  simp [h1]

/-- On exact two-decimal quantities, Python's `round(x, 2)` is the
identity. -/
theorem pyRound2_twoDec {x : ℚ} (h : TwoDec x) : pyRound2 x = x := by
  unfold TwoDec at h
  have hx : ((100 * x).num : ℚ) = 100 * x := by
    have := Rat.den_eq_one_iff (100 * x) |>.mp h
    exact_mod_cast this
  unfold pyRound2
  rw [← hx, roundHalfEven_intCast, hx]
  field_simp

theorem twoDec_intMul (q : ℤ) {p : ℚ} (h : TwoDec p) : TwoDec ((q : ℚ) * p) := by
  unfold TwoDec at h ⊢
  have hx : ((100 * p).num : ℚ) = 100 * p := by
    have := Rat.den_eq_one_iff (100 * p) |>.mp h
    exact_mod_cast this
  have : 100 * ((q : ℚ) * p) = ((q * (100 * p).num : ℤ) : ℚ) := by
    push_cast
    rw [hx]; ring
  rw [this]
  exact Rat.den_intCast _

theorem twoDec_natMul (n : ℕ) {p : ℚ} (h : TwoDec p) : TwoDec ((n : ℚ) * p) := by
  have := twoDec_intMul (n : ℤ) h
  simpa using this

/-! ## Planner data model (`src/logic/planner.py`) -/

/-- The `Action` column of an execution order. -/
inductive PAction
  | buy
  | sell
  | hold
  deriving DecidableEq

/-- One execution-plan row
(`Symbol`, `Rank`, `Action`, `Price`, `Quantity`, `Invested`).
`rank = none` renders as `"N/A"`. -/
structure Order where
  symbol : String
  rank : Option ℤ
  action : PAction
  price : ℚ
  quantity : ℤ
  invested : ℚ
  deriving DecidableEq

/-- One record handed to `_fill_underweight_gaps_only`.  The source passes
plain dicts; the `price` key is optional because the rebalance path builds
records without it (they carry `current_price` instead), which makes the
function's required-column check fail. -/
structure RTarget where
  symbol : String
  price : Option ℚ
  currentValue : ℚ
  deriving DecidableEq

/-- First-match association-list lookup (Python `dict.get`). -/
def lookupQ : List (String × ℚ) → String → Option ℚ
  | [], _ => none
  | (k, v) :: rest, s => if k = s then some v else lookupQ rest s

/-- Sum of the `Invested` column. -/
def sumInvested (l : List Order) : ℚ := (l.map (·.invested)).sum

/-- Sum of the `Invested` column over rows with the given action. -/
def sumInvestedBy (a : PAction) (l : List Order) : ℚ :=
  ((l.filter (fun o => o.action = a)).map (·.invested)).sum

/-- Minimum of a list of rationals (`Series.min` on a non-empty column;
the `[]` case is never reached on the guarded paths). -/
def listMinQ : List ℚ → ℚ
  | [] => 0
  | [x] => x
  | x :: y :: ys => min x (listMinQ (y :: ys))

/-- Maximum of a list of rationals, `0` for the empty list (only applied
to lists of positive prices). -/
def listMaxQ : List ℚ → ℚ
  | [] => 0
  | x :: xs => max x (listMaxQ xs)

/-! ### `_fill_underweight_gaps_only` (planner.py lines 137-217) -/

/-- Stable insert for the descending-gap sort. -/
def insertByGapDesc (x : RTarget × ℚ) : List (RTarget × ℚ) → List (RTarget × ℚ)
  | [] => [x]
  | y :: ys => if x.2 ≥ y.2 then x :: y :: ys else y :: insertByGapDesc x ys

/-- `df.sort_values("gap", ascending=False)`.  pandas' quicksort is
unstable on ties; we use a stable sort and keep all statements
insensitive to the order of tied keys. -/
def sortByGapDesc : List (RTarget × ℚ) → List (RTarget × ℚ)
  | [] => []
  | x :: xs => insertByGapDesc x (sortByGapDesc xs)

/-- The sequential fill loop of `_fill_underweight_gaps_only`: walk the
gap-sorted rows, buying `min(remaining // price, gap // price)` shares,
stopping (`break`) once remaining capital is `≤ 0`.  Returns the emitted
orders and the remaining capital. -/
def fillFold (rankMap : String → Option ℤ) :
    List (RTarget × ℚ) → List Order → ℚ → List Order × ℚ
  | [], acc, r => (acc, r)
  | (t, gap) :: rest, acc, r =>
    if r ≤ 0 then (acc, r)
    else
      let price := t.price.getD 0
      let maxShares : ℤ := ⌊r / price⌋
      let sharesNeeded : ℤ := ⌊gap / price⌋
      let toBuy := min maxShares sharesNeeded
      if 0 < toBuy then
        fillFold rankMap rest
          (acc ++ [⟨t.symbol, rankMap t.symbol, .buy, pyRound2 price, toBuy,
                    pyRound2 ((toBuy : ℚ) * price)⟩])
          (r - (toBuy : ℚ) * price)
      else fillFold rankMap rest acc r

/-- `_fill_underweight_gaps_only(targets, total_capital, target_weight_value,
rank_map)`.  The required-column check: the `price` column exists only when
the records carry a `price` key (the call sites are homogeneous, so we test
them all). -/
def fillUnderweightGapsOnly (targets : List RTarget) (totalCapital targetW : ℚ)
    (rankMap : String → Option ℤ) : List Order :=
  if targets = [] then []
  else if ¬ targets.all (fun t => t.price.isSome) then []
  else
    let under := targets.filter (fun t => decide (t.currentValue < targetW))
    let rows := sortByGapDesc (under.map (fun t => (t, targetW - t.currentValue)))
    (fillFold rankMap rows [] totalCapital).1

/-! ### `_maximize_capital_deployment` (planner.py lines 220-321) -/

/-- One round of the equal-distribution loop: each stock gets
`max(1, per_stock_allocation // price)` shares when the per-stock
allocation covers its price and the cost fits in the remaining capital
at the start of the round. -/
def roundOrdersAux (per remaining : ℚ) : List RTarget → List Order
  | [] => []
  | row :: rest =>
    let price := row.price.getD 0
    let qty : ℤ := if per ≥ price then max 1 ⌊per / price⌋ else 0
    if 0 < qty ∧ (qty : ℚ) * price ≤ remaining then
      ⟨row.symbol, none, .buy, pyRound2 price, qty, pyRound2 ((qty : ℚ) * price)⟩ ::
        roundOrdersAux per remaining rest
    else roundOrdersAux per remaining rest

def roundOrders (holdings : List RTarget) (remaining : ℚ) : List Order :=
  roundOrdersAux (remaining / (holdings.length : ℚ)) remaining holdings

/-- The `while remaining_capital >= min_stock_price` loop, indexed by fuel
(the Python loop has none; see the termination analysis for C10).  After a
round the capital is reduced by the sum of the round's *rounded* `Invested`
values, exactly as in the source.  Returns accumulated orders and the final
remaining capital. -/
def roundLoopFuel (holdings : List RTarget) (minPrice : ℚ) :
    ℕ → ℚ → List Order × ℚ
  | 0, r => ([], r)
  | fuel + 1, r =>
    if r < minPrice then ([], r)
    else
      let ro := roundOrders holdings r
      if ro = [] then ([], r)
      else
        let r' := r - sumInvested ro
        if r' < minPrice then (ro, r')
        else
          let res := roundLoopFuel holdings minPrice fuel r'
          (ro ++ res.1, res.2)

/-- Merge an order into the per-symbol consolidation accumulator
(first matching entry absorbs quantity and invested value). -/
def addBySymbol : List Order → Order → List Order
  | [], o => [o]
  | x :: xs, o =>
    if x.symbol = o.symbol then
      { x with quantity := x.quantity + o.quantity,
               invested := x.invested + o.invested } :: xs
    else x :: addBySymbol xs o

/-- The order consolidation at the end of `_maximize_capital_deployment`
(dict keyed by symbol, first-appearance order). -/
def consolidateBySymbol (orders : List Order) : List Order :=
  orders.foldl addBySymbol []

/-- Fuel that covers every terminating run of the while loop: when prices
are whole-paise, each allocating round costs at least the minimum price. -/
def maximizeFuel (r minPrice : ℚ) : ℕ := (⌊r / minPrice⌋).toNat + 1

/-- `_maximize_capital_deployment(df_holdings, additional_capital,
target_weight_value)`. -/
def maximizeCapitalDeployment (dfHoldings : List RTarget)
    (additionalCapital : ℚ) (targetOpt : Option ℚ) : List Order :=
  if dfHoldings = [] then []
  else
    let targetW := targetOpt.getD
      (((dfHoldings.map (·.currentValue)).sum + additionalCapital) /
        (dfHoldings.length : ℚ))
    let uw := fillUnderweightGapsOnly dfHoldings additionalCapital targetW (fun _ => none)
    let remaining := additionalCapital - sumInvested uw
    let minPrice := listMinQ (dfHoldings.map (fun t => t.price.getD 0))
    let res := roundLoopFuel dfHoldings minPrice (maximizeFuel remaining minPrice) remaining
    consolidateBySymbol (uw ++ res.1)

/-! ### `plan_equity_investment` (planner.py lines 6-134) -/

/-- First pass of `plan_equity_investment`: the symbols that can buy at
least one share with the initial equal per-stock allocation.  Symbols
with no price or a zero (falsy) price are skipped; symbols whose price
exceeds the per-stock allocation are silently dropped. -/
def planEquityPurchasable (latestClose : List (String × ℚ))
    (perStockAlloc : ℚ) : List String → List String
  | [] => []
  | s :: rest =>
    match lookupQ latestClose s with
    | none => planEquityPurchasable latestClose perStockAlloc rest
    | some p =>
      if p = 0 then planEquityPurchasable latestClose perStockAlloc rest
      else if perStockAlloc ≥ p then
        s :: planEquityPurchasable latestClose perStockAlloc rest
      else planEquityPurchasable latestClose perStockAlloc rest

/-- Step 2 of `plan_equity_investment`: the initial zero-quantity holdings
records for the purchasable symbols (`if price and price > 0`). -/
def planEquityHoldings (latestClose : List (String × ℚ)) : List String → List RTarget
  | [] => []
  | s :: rest =>
    match lookupQ latestClose s with
    | none => planEquityHoldings latestClose rest
    | some p =>
      if 0 < p then ⟨s, some p, 0⟩ :: planEquityHoldings latestClose rest
      else planEquityHoldings latestClose rest

/-- `plan_equity_investment(symbols, price_data, as_of_date, total_capital,
ranked_df, transaction_cost_pct)`, with `latest_close` and `rank_map`
already materialised (the `Weight %` presentation column is not modelled). -/
def planEquityInvestment (symbols : List String) (latestClose : List (String × ℚ))
    (totalCapital : ℚ) (rankMap : String → Option ℤ) (tcPct : ℚ) : List Order :=
  let investable := totalCapital - totalCapital * tcPct
  let perAlloc := if symbols = [] then 0 else investable / (symbols.length : ℚ)
  let purchasable := planEquityPurchasable latestClose perAlloc symbols
  if purchasable = [] then []
  else
    let holdings : List RTarget := planEquityHoldings latestClose purchasable
    if holdings = [] then []
    else
      (maximizeCapitalDeployment holdings investable none).map
        (fun o => { o with rank := rankMap o.symbol })

/-! ### `_fallback_allocation_cheapest_symbol` (planner.py lines 324-384) -/

/-- Stable insert for the ascending-price sort of the fallback universe. -/
def insertByPriceAsc (latestClose : List (String × ℚ)) (x : String) :
    List String → List String
  | [] => [x]
  | y :: ys =>
    if (lookupQ latestClose x).getD 0 ≤ (lookupQ latestClose y).getD 0 then
      x :: y :: ys
    else y :: insertByPriceAsc latestClose x ys

/-- `sorted(unused_symbols, key=lambda s: latest_close[s])` (Python's sort
is stable; the input order comes from a set and is unspecified, which no
statement below depends on). -/
def sortByPriceAsc (latestClose : List (String × ℚ)) : List String → List String
  | [] => []
  | x :: xs => insertByPriceAsc latestClose x (sortByPriceAsc latestClose xs)

/-- The scan over the price-sorted fallback universe: the first symbol
whose price fits at least once into the remaining capital gets a single
consolidated BUY of `remaining // price` shares. -/
def fallbackScan (latestClose : List (String × ℚ)) (rankMap : String → Option ℤ)
    (remaining : ℚ) : List String → List Order
  | [] => []
  | s :: rest =>
    let price := (lookupQ latestClose s).getD 0
    let qty : ℤ := ⌊remaining / price⌋
    if 0 < qty then
      [⟨s, rankMap s, .buy, pyRound2 price, qty, pyRound2 ((qty : ℚ) * price)⟩]
    else fallbackScan latestClose rankMap remaining rest

/-- `_fallback_allocation_cheapest_symbol(remaining_capital,
all_allocated_symbols, universe_symbols, latest_close, rank_map)`. -/
def fallbackAllocCheapestSymbol (remaining : ℚ) (allAllocated : List String)
    (universeSymbols : List String) (latestClose : List (String × ℚ))
    (rankMap : String → Option ℤ) : List Order :=
  if remaining ≤ 0 then []
  else
    let unused := universeSymbols.filter (fun s =>
      decide (¬ allAllocated.contains s) && decide ((lookupQ latestClose s).getD 0 ≠ 0))
    fallbackScan latestClose rankMap remaining (sortByPriceAsc latestClose unused)

/-! ### `plan_portfolio_rebalance` (planner.py lines 472-619) -/

/-- One previous-holdings record (`symbol`, `quantity`, `buy_price`);
broker holdings always carry integer quantities. -/
structure PrevHolding where
  symbol : String
  quantity : ℕ
  buyPrice : ℚ
  deriving DecidableEq

/-- One `prev_df` row after the `current_price`/`current_value` columns
are added (`latest_close.get(x, 0)` gives missing symbols price 0). -/
structure PrevRow where
  symbol : String
  quantity : ℕ
  currentPrice : ℚ
  currentValue : ℚ
  deriving DecidableEq

/-- Build `prev_df` with `current_price` and `current_value`. -/
def prevRows (prev : List PrevHolding) (latestClose : List (String × ℚ)) :
    List PrevRow :=
  prev.map (fun h =>
    let cp := (lookupQ latestClose h.symbol).getD 0
    ⟨h.symbol, h.quantity, cp, (h.quantity : ℚ) * cp⟩)

/-- Step 1 of the rebalance: allocate to new entries first.  Walks the
new-entry symbols, buying `min(target_weight_value, freed - used) // price`
shares whenever that is positive and the cumulative spend stays within
the freed capital.  Returns the orders and the total `used`. -/
def newEntriesFold (latestClose : List (String × ℚ)) (rankMap : String → Option ℤ)
    (targetW freed : ℚ) : List String → List Order → ℚ → List Order × ℚ
  | [], acc, used => (acc, used)
  | s :: rest, acc, used =>
    match lookupQ latestClose s with
    | none => newEntriesFold latestClose rankMap targetW freed rest acc used
    | some price =>
      let maxAlloc := min targetW (freed - used)
      let qty : ℤ := ⌊maxAlloc / price⌋
      let invested := (qty : ℚ) * price
      if 0 < qty ∧ used + invested ≤ freed then
        newEntriesFold latestClose rankMap targetW freed rest
          (acc ++ [⟨s, rankMap s, .buy, pyRound2 price, qty, pyRound2 invested⟩])
          (used + invested)
      else newEntriesFold latestClose rankMap targetW freed rest acc used

/-- Merge an order into the grouped accumulator keyed by
(`Symbol`, `Rank`, `Action`, `Price`), summing quantity and invested. -/
def addKeyed : List Order → Order → List Order
  | [], o => [o]
  | x :: xs, o =>
    if x.symbol = o.symbol ∧ x.rank = o.rank ∧ x.action = o.action ∧ x.price = o.price then
      { x with quantity := x.quantity + o.quantity,
               invested := x.invested + o.invested } :: xs
    else x :: addKeyed xs o

/-- The `groupby(["Symbol","Rank","Action","Price"]).agg(sum)` step
(pandas emits groups sorted by key; we keep first-appearance order, which
no claim depends on). -/
def groupRows (l : List Order) : List Order := l.foldl addKeyed []

/-- `df_held`: the previous-holdings rows whose symbol is in
`held_stocks`. -/
def rebalanceDfHeld (previousHoldings : List PrevHolding)
    (latestClose : List (String × ℚ)) (heldStocks : List String) : List PrevRow :=
  (prevRows previousHoldings latestClose).filter (fun r => heldStocks.contains r.symbol)

/-- `df_removed`: the previous-holdings rows whose symbol is in
`removed_stocks`. -/
def rebalanceDfRemoved (previousHoldings : List PrevHolding)
    (latestClose : List (String × ℚ)) (removedStocks : List String) : List PrevRow :=
  (prevRows previousHoldings latestClose).filter
    (fun r => removedStocks.contains r.symbol)

/-- The SELL rows emitted for every removed holding (full quantity at the
current price). -/
def rebalanceSellRows (dfRemoved : List PrevRow) (rankMap : String → Option ℤ) :
    List Order :=
  dfRemoved.map (fun r =>
    ⟨r.symbol, rankMap r.symbol, .sell, pyRound2 r.currentPrice,
      (r.quantity : ℤ), pyRound2 r.currentValue⟩)

/-- `total_sell_value`. -/
def rebalanceTotalSell (dfRemoved : List PrevRow) : ℚ :=
  (dfRemoved.map (·.currentValue)).sum

/-- `freed_capital = max(0, total_sell_value - total_sell_value * 2 *
transaction_cost_pct)` — note: no cash term; the function has no cash
input. -/
def rebalanceFreed (dfRemoved : List PrevRow) (tcPct : ℚ) : ℚ :=
  max 0 (rebalanceTotalSell dfRemoved - rebalanceTotalSell dfRemoved * 2 * tcPct)

/-- `target_weight_value = (held value + freed) / (|held| + |new|)`. -/
def rebalanceTarget (dfHeld dfRemoved : List PrevRow) (tcPct : ℚ)
    (heldStocks newEntries : List String) : ℚ :=
  ((dfHeld.map (·.currentValue)).sum + rebalanceFreed dfRemoved tcPct) /
    ((heldStocks.length + newEntries.length : ℕ) : ℚ)

/-- The HOLD rows emitted for every held holding. -/
def rebalanceHoldRows (dfHeld : List PrevRow) (rankMap : String → Option ℤ) :
    List Order :=
  dfHeld.map (fun r =>
    ⟨r.symbol, rankMap r.symbol, .hold, pyRound2 r.currentPrice,
      (r.quantity : ℤ), pyRound2 r.currentValue⟩)

/-- `plan_portfolio_rebalance(held_stocks, new_entries, removed_stocks,
previous_holdings, price_data, as_of_date, ranked_df, transaction_cost_pct)`
with `latest_close` and `rank_map` materialised.  The final cosmetic
`sort_values(["Action","Symbol"])` is not modelled (row order only). -/
def planPortfolioRebalance (heldStocks newEntries removedStocks : List String)
    (previousHoldings : List PrevHolding) (latestClose : List (String × ℚ))
    (rankMap : String → Option ℤ) (tcPct : ℚ) : List Order :=
  if previousHoldings = [] then []
  else
    let dfHeld := rebalanceDfHeld previousHoldings latestClose heldStocks
    let dfRemoved := rebalanceDfRemoved previousHoldings latestClose removedStocks
    let sellRows := rebalanceSellRows dfRemoved rankMap
    let freedCapital := rebalanceFreed dfRemoved tcPct
    let targetW := rebalanceTarget dfHeld dfRemoved tcPct heldStocks newEntries
    let newRes := newEntriesFold latestClose rankMap targetW freedCapital newEntries [] 0
    let remaining1 := freedCapital - newRes.2
    -- The held records are built from prev_df, whose columns are
    -- symbol/quantity/buy_price/current_price/current_value: there is no
    -- "price" key, so _fill_underweight_gaps_only's required-column check
    -- fails on this path and it allocates nothing.
    let heldTargets : List RTarget := dfHeld.map (fun r => ⟨r.symbol, none, r.currentValue⟩)
    let heldExec := fillUnderweightGapsOnly heldTargets remaining1 targetW rankMap
    let used2 := newRes.2 + sumInvested heldExec
    let remaining2 := freedCapital - used2
    let allAllocated := (newRes.1 ++ heldExec ++ sellRows).map (·.symbol)
    let allFinal := (heldStocks ++ newEntries).dedup
    let fallbackExec := fallbackAllocCheapestSymbol remaining2 allAllocated allFinal
      latestClose rankMap
    let holdRows := rebalanceHoldRows dfHeld rankMap
    groupRows (sellRows ++ fallbackExec ++ newRes.1 ++ heldExec ++ holdRows)

/-! ## Simulated broker ledger (`src/broker/backtest.py`) -/

/-- One holdings record of the backtest broker
(`{"symbol", "quantity", "buy_price"}`). -/
structure BHolding where
  symbol : String
  quantity : ℤ
  buyPrice : ℚ
  deriving DecidableEq

/-- One transaction-log record
(`{"date", "symbol", "action", "quantity", "price", "cash_after"}`). -/
structure BTxn where
  date : ℕ
  symbol : String
  action : String
  quantity : ℤ
  price : ℚ
  cashAfter : ℚ
  deriving DecidableEq

/-- The mutable state of `BacktestBroker`. -/
structure BrokerState where
  cash : ℚ
  holdings : List BHolding
  transactions : List BTxn
  deriving DecidableEq

/-- `BacktestBroker(initial_capital)`. -/
def initBroker (c : ℚ) : BrokerState := ⟨c, [], []⟩

/-- The mock order id (`strftime` date formatting kept abstract as
`toString`). -/
def mockOrderId (symbol : String) (date : ℕ) (ttype : String) : String :=
  "MOCK_ORDER_" ++ symbol ++ "_" ++ toString date ++ "_" ++ ttype

/-- Update the first matching holding on a BUY: quantity-weighted merge of
the old cost basis with the new purchase value. -/
def mergeBuyFirst : List BHolding → String → ℤ → ℚ → List BHolding
  | [], _, _, _ => []
  | h :: hs, sym, qty, value =>
    if h.symbol = sym then
      ⟨h.symbol, h.quantity + qty,
        ((h.quantity : ℚ) * h.buyPrice + value) / ((h.quantity : ℚ) + (qty : ℚ))⟩ :: hs
    else h :: mergeBuyFirst hs sym qty value

/-- Update the first matching holding on a SELL: decrement the quantity,
removing the record entirely when it reaches zero. -/
def sellUpdateFirst : List BHolding → String → ℤ → List BHolding
  | [], _, _ => []
  | h :: hs, sym, qty =>
    if h.symbol = sym then
      if h.quantity - qty = 0 then hs
      else ⟨h.symbol, h.quantity - qty, h.buyPrice⟩ :: hs
    else h :: sellUpdateFirst hs sym qty

/-- `BacktestBroker.place_market_order(symbol, quantity, transaction_type,
price, date)`: returns the new state and the order id (`none` = rejected,
state unchanged).  A transaction type other than `"BUY"`/`"SELL"` falls
through both branches and returns an id without touching the state, as in
the source. -/
def placeMarketOrder (s : BrokerState) (symbol : String) (quantity : ℤ)
    (ttype : String) (price : ℚ) (date : ℕ) : BrokerState × Option String :=
  if quantity ≤ 0 then (s, none)
  else
    let value := (quantity : ℚ) * price
    if ttype = "BUY" then
      if value > s.cash then (s, none)
      else
        let holdings :=
          match s.holdings.find? (fun h => decide (h.symbol = symbol)) with
          | some _ => mergeBuyFirst s.holdings symbol quantity value
          | none => s.holdings ++ [⟨symbol, quantity, price⟩]
        (⟨s.cash - value, holdings,
          s.transactions ++ [⟨date, symbol, "BUY", quantity, price, s.cash - value⟩]⟩,
          some (mockOrderId symbol date ttype))
    else if ttype = "SELL" then
      match s.holdings.find? (fun h => decide (h.symbol = symbol)) with
      | none => (s, none)
      | some h =>
        if h.quantity < quantity then (s, none)
        else
          (⟨s.cash + value, sellUpdateFirst s.holdings symbol quantity,
            s.transactions ++ [⟨date, symbol, "SELL", quantity, price, s.cash + value⟩]⟩,
            some (mockOrderId symbol date ttype))
    else (s, some (mockOrderId symbol date ttype))

/-- The (quantity, average buy price) of the first holdings record for a
symbol. -/
def position (s : BrokerState) (sym : String) : Option (ℤ × ℚ) :=
  (s.holdings.find? (fun h => decide (h.symbol = sym))).map
    (fun h => (h.quantity, h.buyPrice))

/-- One queued order request for a broker run. -/
structure OrderReq where
  symbol : String
  quantity : ℤ
  ttype : String
  price : ℚ
  date : ℕ
  deriving DecidableEq

/-- Apply one order, keeping only the state. -/
def applyOrder (s : BrokerState) (r : OrderReq) : BrokerState :=
  (placeMarketOrder s r.symbol r.quantity r.ttype r.price r.date).1

/-- Run a finite sequence of `place_market_order` calls. -/
def runOrders (s : BrokerState) (reqs : List OrderReq) : BrokerState :=
  reqs.foldl applyOrder s

/-- The cash balance after the last logged transaction (`c0` if none). -/
def lastCashAfter (c0 : ℚ) (l : List BTxn) : ℚ :=
  l.foldl (fun _ t => t.cashAfter) c0

/-- The monotone-cash property of a transaction log read chronologically
with starting cash `c0`: every record's `cash_after` is non-negative,
every BUY record's `cash_after` is strictly below the cash before that
order, and every SELL record's strictly above it.  (Between two logged
orders nothing else touches the cash, so the cash before an order is the
previous record's `cash_after`.) -/
def goodLog (c0 : ℚ) : List BTxn → Prop
  | [] => True
  | t :: rest =>
    (0 ≤ t.cashAfter) ∧ (t.action = "BUY" → t.cashAfter < c0) ∧
      (t.action = "SELL" → c0 < t.cashAfter) ∧ goodLog t.cashAfter rest

/-! ## Portfolio classifier (`src/logic/strategy.py`) -/

/-- First index of an element in a list (0-based; length if absent, but
only consulted under a membership guard, as in the source's
`.values[0]`). -/
def firstIdx {α : Type} [DecidableEq α] : List α → α → ℕ
  | [], _ => 0
  | x :: xs, s => if x = s then 0 else firstIdx xs s + 1

/-- Left-to-right removal of every occurrence of `".NS"` from a character
list (the semantics of `str.replace(".NS", "")`). -/
def removeNSList : List Char → List Char
  | '.' :: 'N' :: 'S' :: rest => removeNSList rest
  | c :: rest => c :: removeNSList rest
  | [] => []

/-- `str.replace(".NS", "")`. -/
def stripNS (s : String) : String := ⟨removeNSList s.data⟩

/-- Whether `".NS"` occurs in a character list (the semantics of
`".NS" in symbol`). -/
def containsNSList : List Char → Bool
  | '.' :: 'N' :: 'S' :: _ => true
  | _ :: rest => containsNSList rest
  | [] => false

/-- `".NS" in symbol`. -/
def hasNS (s : String) : Bool := containsNSList s.data

/-- The held/removed bucket split of the strong-market branch: the cash
equivalent is always removed; any other held symbol is kept when it
appears in the ranked list with 1-based rank at most `top_n + band`,
otherwise removed. -/
def classifyHeld (symbolsRanked : List String) (topN band : ℕ) (cashClean : String) :
    List String → List String × List String
  | [] => ([], [])
  | sym :: rest =>
    let res := classifyHeld symbolsRanked topN band cashClean rest
    if sym = cashClean then (res.1, sym :: res.2)
    else if sym ∈ symbolsRanked then
      if firstIdx symbolsRanked sym + 1 ≤ topN + band then (sym :: res.1, res.2)
      else (res.1, sym :: res.2)
    else (res.1, sym :: res.2)

/-- Python's `lst[:n]` where `n` may be negative (then it drops the last
`|n|` elements). -/
def pyTake (l : List String) (n : ℤ) : List String :=
  if 0 ≤ n then l.take n.toNat else l.take (l.length - (-n).toNat)

/-- `raw_new_entries`: the first `top_n` ranked symbols not already held,
sliced to `top_n - len(held_stocks)` entries. -/
def rawNewCandidates (symbolsRanked heldOut : List String) (topN : ℕ) : List String :=
  pyTake ((symbolsRanked.take topN).filter (fun s => decide (s ∉ heldOut)))
    ((topN : ℤ) - (heldOut.length : ℤ))

/-- First-match lookup of a symbol's price series in `price_data`. -/
def lookupSeries : List (String × List (ℕ × ℚ)) → String → Option (List (ℕ × ℚ))
  | [], _ => none
  | (k, v) :: rest, s => if k = s then some v else lookupSeries rest s

/-- First-match lookup of the close on a given date (`df.loc[date,
"Close"]` on a unique index). -/
def lookupClose : List (ℕ × ℚ) → ℕ → Option ℚ
  | [], _ => none
  | (d, c) :: rest, x => if d = x then some c else lookupClose rest x

/-- Stable ascending insertion for `sorted(df.index)`. -/
def insertNatAsc (x : ℕ) : List ℕ → List ℕ
  | [] => [x]
  | y :: ys => if x ≤ y then x :: y :: ys else y :: insertNatAsc x ys

/-- `sorted(df.index)`. -/
def sortNatAsc : List ℕ → List ℕ
  | [] => []
  | x :: xs => insertNatAsc x (sortNatAsc xs)

/-- The jump filter's decision for one candidate: `true` iff the candidate
must be skipped because its single-day return on the rebalance date
exceeds 15%.  Candidates with no price series, with the date absent, with
fewer than two rows up to the date, or sitting on the first row, are kept
(`false`). -/
def shouldSkipJump (priceData : List (String × List (ℕ × ℚ))) (asOf : ℕ)
    (symbol : String) : Bool :=
  let symbolNS := if hasNS symbol then symbol else symbol ++ ".NS"
  match lookupSeries priceData symbolNS with
  | none => false
  | some df =>
    if asOf ∉ df.map Prod.fst then false
    else if (df.filter (fun e => decide (e.1 ≤ asOf))).length < 2 then false
    else
      let dates := sortNatAsc (df.map Prod.fst)
      let i := firstIdx dates asOf
      if i = 0 then false
      else
        let prevClose := (lookupClose df (dates.getD (i - 1) 0)).getD 0
        let currClose := (lookupClose df asOf).getD 0
        decide (currClose / prevClose - 1 > 15/100)

/-- The classifier's output tuple (the trailing `ranked_df` frame, pure
presentation, is not carried). -/
structure StratResult where
  recommendations : List (String × String)
  marketRegime : String
  heldStocks : List String
  newEntries : List String
  removedStocks : List String
  finalPortfolio : List String
  deriving DecidableEq

/-- `run_strategy(price_data, as_of_date, held_symbols, top_n, band,
weights, cash_equivalent)`.  The external collaborators are passed as
inputs: `marketStrong` is the value of `is_market_strong(...)` (§6 market
regime signal) and `rankedSymbols` is the symbol column of the ranked
frame returned by `rank(...)`, best first. -/
def runStrategy (priceData : List (String × List (ℕ × ℚ))) (asOf : ℕ)
    (heldSymbols : List String) (topN band : ℕ) (marketStrong : Bool)
    (rankedSymbols : List String) (cashEquivalent : String) : StratResult :=
  let cashClean := stripNS cashEquivalent
  let isInCash := cashClean ∈ heldSymbols ∧ heldSymbols.length = 1
  if ¬ marketStrong then
    if isInCash then ⟨[], "WEAK", [], [], [], []⟩
    else
      ⟨(heldSymbols.filter (fun s => decide (s ≠ cashClean))).map (fun s => (s, "SELL")),
        "WEAK", [], [], heldSymbols, []⟩
  else
    let symbolsRanked := rankedSymbols.map stripNS
    let hr := classifyHeld symbolsRanked topN band cashClean heldSymbols
    let rawNew := rawNewCandidates symbolsRanked hr.1 topN
    let newList := rawNew.filter (fun s => ! shouldSkipJump priceData asOf s)
    ⟨hr.2.map (fun s => (s, "SELL")) ++ newList.map (fun s => (s, "BUY")),
      "STRONG", hr.1, newList, hr.2, hr.1 ++ newList⟩

/-! ## Ledger lemmas -/

theorem find_mergeBuyFirst (l : List BHolding) (sym : String) (qty : ℤ) (value : ℚ) :
    (mergeBuyFirst l sym qty value).find? (fun h => decide (h.symbol = sym)) =
      (l.find? (fun h => decide (h.symbol = sym))).map
        (fun h => ⟨h.symbol, h.quantity + qty,
          ((h.quantity : ℚ) * h.buyPrice + value) / ((h.quantity : ℚ) + (qty : ℚ))⟩) := by
  induction l with
  | nil => simp [mergeBuyFirst]
  | cons x xs ih =>
    by_cases hc : x.symbol = sym
    · simp [mergeBuyFirst, hc, List.find?_cons_of_pos]
    · rw [mergeBuyFirst]
      simp only [if_neg hc]
      rw [List.find?_cons_of_neg _ (by simp [hc]), List.find?_cons_of_neg _ (by simp [hc]), ih]

theorem find?_append_of_none {α : Type} (p : α → Bool) (l₁ l₂ : List α)
    (h : l₁.find? p = none) : (l₁ ++ l₂).find? p = l₂.find? p := by
  induction l₁ with
  | nil => simp
  | cons x xs ih =>
    rcases hx : p x with hfalse | htrue
    · rw [List.find?_cons_of_neg _ (by simp [hx])] at h
      rw [List.cons_append, List.find?_cons_of_neg _ (by simp [hx]), ih h]
    · rw [List.find?_cons_of_pos _ (by simp [hx])] at h; simp at h

theorem find_sellUpdateFirst (l : List BHolding) (sym : String) (qty : ℤ) (h : BHolding)
    (hf : l.find? (fun x => decide (x.symbol = sym)) = some h)
    (hnd : (l.map (·.symbol)).Nodup) :
    (sellUpdateFirst l sym qty).find? (fun x => decide (x.symbol = sym)) =
      if h.quantity - qty = 0 then none
      else some ⟨h.symbol, h.quantity - qty, h.buyPrice⟩ := by
  induction l with
  | nil => simp at hf
  | cons x xs ih =>
    by_cases hc : x.symbol = sym
    · rw [List.find?_cons_of_pos _ (by simp [hc])] at hf
      injection hf with hf
      subst hf
      rw [sellUpdateFirst]
      simp only [if_pos hc]
      by_cases hz : x.quantity - qty = 0
      · rw [if_pos hz, if_pos hz]
        rw [List.find?_eq_none]
        intro y hy
        simp only [decide_eq_true_eq]
        intro hcon
        have hmem : sym ∈ xs.map (·.symbol) := by
          rw [← hcon]; exact List.mem_map_of_mem _ hy
        rw [List.map_cons, List.nodup_cons] at hnd
        exact hnd.1 (hc ▸ hmem)
      · rw [if_neg hz, if_neg hz]
        rw [List.find?_cons_of_pos _ (by simp [hc])]
    · rw [List.find?_cons_of_neg _ (by simp [hc])] at hf
      rw [List.map_cons, List.nodup_cons] at hnd
      rw [sellUpdateFirst]
      simp only [if_neg hc]
      rw [List.find?_cons_of_neg _ (by simp [hc])]
      exact ih hf hnd.2

/-- C4 — Ledger BUY semantics (confirmed): a BUY with positive quantity is
atomically rejected (returns `none`, state untouched) when its value
exceeds the cash balance; otherwise cash drops by exactly
`quantity × price` and the position becomes the quantity-weighted mean of
the old cost basis and the new purchase (a fresh position opens at the
purchase price, which is that weighted mean over an empty basis). -/
theorem buy_order_semantics (s : BrokerState) (sym : String) (qty : ℤ) (price : ℚ)
    (date : ℕ) (hq : 0 < qty) :
    ((qty : ℚ) * price > s.cash →
      placeMarketOrder s sym qty "BUY" price date = (s, none)) ∧
    ((qty : ℚ) * price ≤ s.cash →
      (placeMarketOrder s sym qty "BUY" price date).1.cash = s.cash - (qty : ℚ) * price ∧
      position (placeMarketOrder s sym qty "BUY" price date).1 sym =
        some (match position s sym with
          | some (q0, bp0) => (q0 + qty, ((q0 : ℚ) * bp0 + (qty : ℚ) * price) /
              ((q0 : ℚ) + (qty : ℚ)))
          | none => (qty, price)) ∧
      (placeMarketOrder s sym qty "BUY" price date).2 ≠ none) := by
  have hq' : ¬ qty ≤ 0 := not_le.mpr hq
  constructor
  · intro hgt
    simp only [placeMarketOrder, if_neg hq', eq_self_iff_true, if_true]
    rw [if_pos hgt]
  · intro hle
    simp only [placeMarketOrder, if_neg hq', eq_self_iff_true, if_true]
    rw [if_neg (not_lt.mpr hle)]
    refine ⟨rfl, ?_, by simp⟩
    rcases hfind : s.holdings.find? (fun h => decide (h.symbol = sym)) with _ | h
    · simp only [position, hfind, Option.map_none']
      rw [find?_append_of_none _ _ _ hfind]
      rw [List.find?_cons_of_pos _ (by simp)]
      simp
    · have hsym : h.symbol = sym := by
        have := List.find?_some hfind
        simpa using this
      simp only [position, hfind, Option.map_some']
      rw [find_mergeBuyFirst, hfind]
      simp [hsym]

/-- C4 witness: buying 1 share at price 10 with cash 100 against an
existing 1-share position with basis 50. -/
theorem buy_order_semantics_witness :
    ((1 : ℤ) : ℚ) * 10 ≤ (100 : ℚ) ∧
    ((((1 : ℤ) : ℚ) * 10 ≤ (100 : ℚ) →
      (placeMarketOrder ⟨100, [⟨"X", 1, 50⟩], []⟩ "X" 1 "BUY" 10 0).1.cash =
        100 - ((1 : ℤ) : ℚ) * 10 ∧
      position (placeMarketOrder ⟨100, [⟨"X", 1, 50⟩], []⟩ "X" 1 "BUY" 10 0).1 "X" =
        some (match position ⟨100, [⟨"X", 1, 50⟩], []⟩ "X" with
          | some (q0, bp0) => (q0 + 1, ((q0 : ℚ) * bp0 + ((1 : ℤ) : ℚ) * 10) /
              ((q0 : ℚ) + ((1 : ℤ) : ℚ)))
          | none => (1, 10)) ∧
      (placeMarketOrder ⟨100, [⟨"X", 1, 50⟩], []⟩ "X" 1 "BUY" 10 0).2 ≠ none)) :=
  ⟨by norm_num, (buy_order_semantics ⟨100, [⟨"X", 1, 50⟩], []⟩ "X" 1 10 0 (by norm_num)).2⟩

/-- C5 counterexample: the claim quantifies over *every* SELL order, but a
SELL with non-positive quantity (here `-1` against a 5-share position at
price 10) is rejected up front by the `quantity <= 0` guard: there *is* a
position and its quantity is not below the requested one, yet cash does
not change by `quantity × price` as the claim's success branch demands. -/
theorem sell_order_claim_counterexample :
    position ⟨100, [⟨"X", 5, 10⟩], []⟩ "X" = some (5, 10) ∧
    ¬ ((5 : ℤ) < -1) ∧
    (placeMarketOrder ⟨100, [⟨"X", 5, 10⟩], []⟩ "X" (-1) "SELL" 10 0).1.cash = 100 ∧
    (placeMarketOrder ⟨100, [⟨"X", 5, 10⟩], []⟩ "X" (-1) "SELL" 10 0).1.cash ≠
      100 + ((-1 : ℤ) : ℚ) * 10 := by
  refine ⟨?_, by norm_num, ?_, ?_⟩
  · simp [position, List.find?]
  · simp [placeMarketOrder]
  · simp [placeMarketOrder]

/-- C5 (amended) — Ledger SELL semantics for orders with positive
quantity, on a well-formed holdings list (no duplicate symbols): rejected
with no state change when there is no position or the position is too
small; otherwise cash grows by exactly `quantity × price`, the position
quantity drops by `quantity`, and the record is deleted exactly when the
quantity reaches zero. -/
theorem sell_order_semantics (s : BrokerState) (sym : String) (qty : ℤ) (price : ℚ)
    (date : ℕ) (hq : 0 < qty) (hnd : (s.holdings.map (·.symbol)).Nodup) :
    (position s sym = none →
      placeMarketOrder s sym qty "SELL" price date = (s, none)) ∧
    (∀ q0 bp0, position s sym = some (q0, bp0) →
      (q0 < qty → placeMarketOrder s sym qty "SELL" price date = (s, none)) ∧
      (qty ≤ q0 →
        (placeMarketOrder s sym qty "SELL" price date).1.cash =
          s.cash + (qty : ℚ) * price ∧
        position (placeMarketOrder s sym qty "SELL" price date).1 sym =
          (if q0 = qty then none else some (q0 - qty, bp0)) ∧
        (placeMarketOrder s sym qty "SELL" price date).2 ≠ none)) := by
  have hq' : ¬ qty ≤ 0 := not_le.mpr hq
  have hbs : ("SELL" : String) ≠ "BUY" := by decide
  constructor
  · intro hpos
    simp only [position, Option.map_eq_none'] at hpos
    simp only [placeMarketOrder, if_neg hq', if_neg hbs, eq_self_iff_true, if_true, hpos]
  · intro q0 bp0 hpos
    simp only [position] at hpos
    rcases hfind : s.holdings.find? (fun h => decide (h.symbol = sym)) with _ | h
    · rw [hfind] at hpos; simp at hpos
    · rw [hfind] at hpos
      simp only [Option.map_some', Option.some_inj] at hpos
      have hq0 : h.quantity = q0 := congrArg Prod.fst hpos
      have hbp : h.buyPrice = bp0 := congrArg Prod.snd hpos
      have hsym : h.symbol = sym := by
        have := List.find?_some hfind
        simpa using this
      constructor
      · intro hlt
        simp only [placeMarketOrder, if_neg hq', if_neg hbs, eq_self_iff_true, if_true, hfind]
        rw [if_pos (hq0 ▸ hlt)]
      · intro hge
        have hnlt : ¬ h.quantity < qty := not_lt.mpr (hq0 ▸ hge)
        simp only [placeMarketOrder, if_neg hq', if_neg hbs, eq_self_iff_true, if_true, hfind]
        rw [if_neg hnlt]
        refine ⟨rfl, ?_, by simp⟩
        simp only [position]
        rw [find_sellUpdateFirst s.holdings sym qty h hfind hnd]
        by_cases hz : q0 = qty
        · rw [if_pos (by omega : h.quantity - qty = 0), if_pos hz]
          simp
        · rw [if_neg (by omega : ¬ h.quantity - qty = 0), if_neg hz]
          simp [hq0, hbp]

/-- C5 witness for the amended theorem: selling 2 of 5 shares at price 10
from cash 100. -/
theorem sell_order_semantics_witness :
    (5 : ℤ) ≥ 2 ∧
    ((2 : ℤ) ≤ 5 →
      (placeMarketOrder ⟨100, [⟨"X", 5, 10⟩], []⟩ "X" 2 "SELL" 10 0).1.cash =
        100 + ((2 : ℤ) : ℚ) * 10 ∧
      position (placeMarketOrder ⟨100, [⟨"X", 5, 10⟩], []⟩ "X" 2 "SELL" 10 0).1 "X" =
        (if (5 : ℤ) = 2 then none else some ((5 : ℤ) - 2, (10 : ℚ))) ∧
      (placeMarketOrder ⟨100, [⟨"X", 5, 10⟩], []⟩ "X" 2 "SELL" 10 0).2 ≠ none) :=
  ⟨by norm_num,
    ((sell_order_semantics ⟨100, [⟨"X", 5, 10⟩], []⟩ "X" 2 10 0 (by norm_num)
      (by simp)).2 5 10 (by simp [position, List.find?])).2⟩

/-- C6 counterexample: the claim quantifies over every order sequence, but
a BUY at price 0 (quantity 1, initial capital 100) succeeds — its value 0
is not above the cash — and logs `cash_after = 100`, which is *not*
strictly less than the cash before the order, refuting the strict BUY
monotonicity as stated.  (With a negative price a SELL can even drive
`cash_after` below 0.) -/
theorem monotonic_cash_counterexample :
    (runOrders (initBroker 100) [⟨"X", 1, "BUY", 0, 0⟩]).transactions =
      [⟨0, "X", "BUY", 1, 0, 100⟩] ∧
    (initBroker 100).cash = 100 ∧ ¬ ((100 : ℚ) < 100) := by
  refine ⟨?_, rfl, by norm_num⟩
  norm_num [runOrders, applyOrder, placeMarketOrder, initBroker]

theorem lastCashAfter_append_single (c0 : ℚ) (l : List BTxn) (t : BTxn) :
    lastCashAfter c0 (l ++ [t]) = t.cashAfter := by
  simp [lastCashAfter, List.foldl_append]

theorem goodLog_append_single (c0 : ℚ) (l : List BTxn) (t : BTxn)
    (hl : goodLog c0 l) (h0 : 0 ≤ t.cashAfter)
    (hb : t.action = "BUY" → t.cashAfter < lastCashAfter c0 l)
    (hs : t.action = "SELL" → lastCashAfter c0 l < t.cashAfter) :
    goodLog c0 (l ++ [t]) := by
  induction l generalizing c0 with
  | nil =>
    exact ⟨h0, by simpa [lastCashAfter] using hb, by simpa [lastCashAfter] using hs, trivial⟩
  | cons x xs ih =>
    obtain ⟨hx0, hxb, hxs, hxrest⟩ := hl
    exact ⟨hx0, hxb, hxs,
      ih x.cashAfter hxrest (by simpa [lastCashAfter] using hb)
        (by simpa [lastCashAfter] using hs)⟩

/-- The cash/log invariant preserved by every `place_market_order` call
with a positive price. -/
theorem applyOrder_log_invariant (c0 : ℚ) (s : BrokerState) (r : OrderReq)
    (hp : 0 < r.price)
    (hc : 0 ≤ s.cash) (hlast : s.cash = lastCashAfter c0 s.transactions)
    (hlog : goodLog c0 s.transactions) :
    0 ≤ (applyOrder s r).cash ∧
    (applyOrder s r).cash = lastCashAfter c0 (applyOrder s r).transactions ∧
    goodLog c0 (applyOrder s r).transactions := by
  rw [applyOrder, placeMarketOrder]
  by_cases hq : r.quantity ≤ 0
  · rw [if_pos hq]
    exact ⟨hc, hlast, hlog⟩
  · rw [if_neg hq]
    have hq1 : (1 : ℤ) ≤ r.quantity := by omega
    have hvpos : 0 < (r.quantity : ℚ) * r.price := by
      have : (0 : ℚ) < (r.quantity : ℚ) := by exact_mod_cast by omega
      positivity
    by_cases hbuy : r.ttype = "BUY"
    · rw [if_pos hbuy]
      by_cases hover : (r.quantity : ℚ) * r.price > s.cash
      · rw [if_pos hover]
        exact ⟨hc, hlast, hlog⟩
      · rw [if_neg hover]
        push_neg at hover
        simp only
        refine ⟨by linarith, ?_, ?_⟩
        · rw [lastCashAfter_append_single]
        · refine goodLog_append_single c0 s.transactions _ hlog (by simp; linarith) ?_ ?_
          · intro _
            simp only [← hlast]
            linarith
          · intro habs
            simp at habs
    · rw [if_neg hbuy]
      by_cases hsell : r.ttype = "SELL"
      · rw [if_pos hsell]
        rcases hfind : s.holdings.find? (fun h => decide (h.symbol = r.symbol)) with _ | h
        · simp only [hfind]
          exact ⟨hc, hlast, hlog⟩
        · simp only [hfind]
          by_cases hlt : h.quantity < r.quantity
          · rw [if_pos hlt]
            exact ⟨hc, hlast, hlog⟩
          · rw [if_neg hlt]
            simp only
            refine ⟨by linarith, ?_, ?_⟩
            · rw [lastCashAfter_append_single]
            · refine goodLog_append_single c0 s.transactions _ hlog (by simp; linarith) ?_ ?_
              · intro habs
                simp at habs
              · intro _
                simp only [← hlast]
                linarith
      · rw [if_neg hsell]
        exact ⟨hc, hlast, hlog⟩

theorem runOrders_log_invariant (c0 : ℚ) (s : BrokerState) (reqs : List OrderReq)
    (hp : ∀ r ∈ reqs, 0 < r.price)
    (hc : 0 ≤ s.cash) (hlast : s.cash = lastCashAfter c0 s.transactions)
    (hlog : goodLog c0 s.transactions) :
    0 ≤ (runOrders s reqs).cash ∧
    (runOrders s reqs).cash = lastCashAfter c0 (runOrders s reqs).transactions ∧
    goodLog c0 (runOrders s reqs).transactions := by
  induction reqs generalizing s with
  | nil => exact ⟨hc, hlast, hlog⟩
  | cons r rest ih =>
    have hstep := applyOrder_log_invariant c0 s r (hp r (by simp)) hc hlast hlog
    exact ih (applyOrder s r) (fun x hx => hp x (by simp [hx]))
      hstep.1 hstep.2.1 hstep.2.2

/-- C6 (amended) — Monotonic cash: for a broker created with non-negative
initial capital and any finite sequence of orders *with strictly positive
prices*, every transaction record's `cash_after` is ≥ 0, every BUY
record's `cash_after` is strictly below the cash before that order, and
every SELL record's `cash_after` strictly above it (the cash before an
order is the previous record's `cash_after`, nothing else touches cash);
the final cash balance is also non-negative.  The positivity restriction
is forced by the counterexample: at price 0 a BUY leaves cash unchanged. -/
theorem monotonic_cash_invariant (c0 : ℚ) (reqs : List OrderReq)
    (hc0 : 0 ≤ c0) (hp : ∀ r ∈ reqs, 0 < r.price) :
    goodLog c0 (runOrders (initBroker c0) reqs).transactions ∧
    0 ≤ (runOrders (initBroker c0) reqs).cash := by
  have h := runOrders_log_invariant c0 (initBroker c0) reqs hp hc0
    (by simp [initBroker, lastCashAfter]) trivial
  exact ⟨h.2.2, h.1⟩

/-- C6 witness: capital 100, a BUY of 2 shares at 10 followed by a SELL of
1 share at 20. -/
theorem monotonic_cash_invariant_witness :
    goodLog 100 (runOrders (initBroker 100)
      [⟨"X", 2, "BUY", 10, 0⟩, ⟨"X", 1, "SELL", 20, 1⟩]).transactions ∧
    0 ≤ (runOrders (initBroker 100)
      [⟨"X", 2, "BUY", 10, 0⟩, ⟨"X", 1, "SELL", 20, 1⟩]).cash :=
  monotonic_cash_invariant 100 [⟨"X", 2, "BUY", 10, 0⟩, ⟨"X", 1, "SELL", 20, 1⟩]
    (by norm_num)
    (by
      intro r hr
      rcases List.mem_cons.mp hr with h | hr2
      · rw [h]; norm_num
      · rcases List.mem_cons.mp hr2 with h | habs
        · rw [h]; norm_num
        · simp at habs)

/-! ## Classifier lemmas and claims -/

/-- Complete characterisation of the held/removed split computed by the
strong-market loop over the held symbols. -/
theorem classifyHeld_mem (symbolsRanked : List String) (topN band : ℕ)
    (cashClean : String) (heldSymbols : List String) (sym : String) :
    (sym ∈ (classifyHeld symbolsRanked topN band cashClean heldSymbols).1 ↔
      (sym ∈ heldSymbols ∧ sym ≠ cashClean ∧ sym ∈ symbolsRanked ∧
        firstIdx symbolsRanked sym + 1 ≤ topN + band)) ∧
    (sym ∈ (classifyHeld symbolsRanked topN band cashClean heldSymbols).2 ↔
      (sym ∈ heldSymbols ∧ (sym = cashClean ∨ sym ∉ symbolsRanked ∨
        topN + band < firstIdx symbolsRanked sym + 1))) := by
  induction heldSymbols with
  | nil => simp [classifyHeld]
  | cons x rest ih =>
    rw [classifyHeld]
    by_cases hcash : x = cashClean
    · rw [if_pos hcash]
      constructor
      · rw [ih.1]
        constructor
        · rintro ⟨hm, hne, hr⟩
          exact ⟨List.mem_cons_of_mem x hm, hne, hr⟩
        · rintro ⟨hm, hne, hr⟩
          rcases List.mem_cons.mp hm with rfl | hm
          · exact absurd hcash hne
          · exact ⟨hm, hne, hr⟩
      · simp only [List.mem_cons, ih.2]
        constructor
        · rintro (rfl | ⟨hm, hdisj⟩)
          · exact ⟨Or.inl rfl, Or.inl hcash⟩
          · exact ⟨Or.inr hm, hdisj⟩
        · rintro ⟨rfl | hm, hdisj⟩
          · exact Or.inl (by rfl)
          · exact Or.inr ⟨hm, hdisj⟩
    · rw [if_neg hcash]
      by_cases hrank : x ∈ symbolsRanked
      · rw [if_pos hrank]
        by_cases hband : firstIdx symbolsRanked x + 1 ≤ topN + band
        · rw [if_pos hband]
          constructor
          · simp only [List.mem_cons, ih.1]
            constructor
            · rintro (rfl | ⟨hm, h2⟩)
              · exact ⟨Or.inl rfl, hcash, hrank, hband⟩
              · exact ⟨Or.inr hm, h2⟩
            · rintro ⟨rfl | hm, h2⟩
              · exact Or.inl rfl
              · exact Or.inr ⟨hm, h2⟩
          · rw [ih.2]
            constructor
            · rintro ⟨hm, hd⟩
              exact ⟨List.mem_cons_of_mem x hm, hd⟩
            · rintro ⟨hm, hd⟩
              rcases List.mem_cons.mp hm with rfl | hm
              · rcases hd with h | h | h
                · exact absurd h hcash
                · exact absurd hrank h
                · omega
              · exact ⟨hm, hd⟩
        · rw [if_neg hband]
          constructor
          · rw [ih.1]
            constructor
            · rintro ⟨hm, h2⟩
              exact ⟨List.mem_cons_of_mem x hm, h2⟩
            · rintro ⟨hm, hne, hr, hb⟩
              rcases List.mem_cons.mp hm with rfl | hm
              · exact absurd hb hband
              · exact ⟨hm, hne, hr, hb⟩
          · simp only [List.mem_cons, ih.2]
            constructor
            · rintro (rfl | ⟨hm, hd⟩)
              · exact ⟨Or.inl rfl, Or.inr (Or.inr (by omega))⟩
              · exact ⟨Or.inr hm, hd⟩
            · rintro ⟨rfl | hm, hd⟩
              · exact Or.inl rfl
              · exact Or.inr ⟨hm, hd⟩
      · rw [if_neg hrank]
        constructor
        · rw [ih.1]
          constructor
          · rintro ⟨hm, h2⟩
            exact ⟨List.mem_cons_of_mem x hm, h2⟩
          · rintro ⟨hm, hne, hr, hb⟩
            rcases List.mem_cons.mp hm with rfl | hm
            · exact absurd hr hrank
            · exact ⟨hm, hne, hr, hb⟩
        · simp only [List.mem_cons, ih.2]
          constructor
          · rintro (rfl | ⟨hm, hd⟩)
            · exact ⟨Or.inl rfl, Or.inr (Or.inl hrank)⟩
            · exact ⟨Or.inr hm, hd⟩
          · rintro ⟨rfl | hm, hd⟩
            · exact Or.inl rfl
            · exact Or.inr ⟨hm, hd⟩

/-- In the strong-market regime the classifier's buckets are exactly the
`classifyHeld` split and the jump-filtered candidate list. -/
theorem runStrategy_strong_components (priceData : List (String × List (ℕ × ℚ)))
    (asOf : ℕ) (heldSymbols : List String) (topN band : ℕ)
    (rankedSymbols : List String) (cashEquivalent : String) :
    (runStrategy priceData asOf heldSymbols topN band true rankedSymbols
        cashEquivalent).heldStocks =
      (classifyHeld (rankedSymbols.map stripNS) topN band (stripNS cashEquivalent)
        heldSymbols).1 ∧
    (runStrategy priceData asOf heldSymbols topN band true rankedSymbols
        cashEquivalent).removedStocks =
      (classifyHeld (rankedSymbols.map stripNS) topN band (stripNS cashEquivalent)
        heldSymbols).2 ∧
    (runStrategy priceData asOf heldSymbols topN band true rankedSymbols
        cashEquivalent).newEntries =
      (rawNewCandidates (rankedSymbols.map stripNS)
        (classifyHeld (rankedSymbols.map stripNS) topN band (stripNS cashEquivalent)
          heldSymbols).1 topN).filter
        (fun s => ! shouldSkipJump priceData asOf s) := by
  refine ⟨?_, ?_, ?_⟩ <;> simp [runStrategy]

/-- C7 counterexample: a held symbol that *is* ranked within
`top_n + band` is nevertheless removed and never held, because the
classifier unconditionally removes the cash-equivalent symbol in a strong
market: `LIQUIDBEES` is ranked 1 (≤ 15 + 5) yet lands in `removed`. -/
theorem held_band_rule_counterexample :
    firstIdx (["LIQUIDBEES.NS", "AAA.NS"].map stripNS) "LIQUIDBEES" + 1 ≤ 15 + 5 ∧
    "LIQUIDBEES" ∈ (["LIQUIDBEES.NS", "AAA.NS"].map stripNS) ∧
    "LIQUIDBEES" ∉ (runStrategy [] 0 ["LIQUIDBEES"] 15 5 true
      ["LIQUIDBEES.NS", "AAA.NS"] "LIQUIDBEES.NS").heldStocks ∧
    "LIQUIDBEES" ∈ (runStrategy [] 0 ["LIQUIDBEES"] 15 5 true
      ["LIQUIDBEES.NS", "AAA.NS"] "LIQUIDBEES.NS").removedStocks := by
  refine ⟨by decide, by decide, by decide, by decide⟩

/-- C7 (amended) — band rule: in a strong market, for every currently held
symbol *other than the cash equivalent*, the symbol is held iff it appears
in the ranked sequence with 1-based rank ≤ `top_n + band`, and otherwise
(rank beyond the band or absent from the ranked universe) it is removed
and never held; the cash-equivalent symbol, when held, is always removed
and never held. -/
theorem held_band_rule (priceData : List (String × List (ℕ × ℚ))) (asOf : ℕ)
    (heldSymbols : List String) (topN band : ℕ) (rankedSymbols : List String)
    (cashEquivalent : String) (sym : String) (hmem : sym ∈ heldSymbols) :
    (sym = stripNS cashEquivalent →
      sym ∈ (runStrategy priceData asOf heldSymbols topN band true rankedSymbols
        cashEquivalent).removedStocks ∧
      sym ∉ (runStrategy priceData asOf heldSymbols topN band true rankedSymbols
        cashEquivalent).heldStocks) ∧
    (sym ≠ stripNS cashEquivalent →
      ((sym ∈ (runStrategy priceData asOf heldSymbols topN band true rankedSymbols
          cashEquivalent).heldStocks ↔
        sym ∈ rankedSymbols.map stripNS ∧
          firstIdx (rankedSymbols.map stripNS) sym + 1 ≤ topN + band) ∧
      (sym ∉ (runStrategy priceData asOf heldSymbols topN band true rankedSymbols
          cashEquivalent).heldStocks →
        sym ∈ (runStrategy priceData asOf heldSymbols topN band true rankedSymbols
          cashEquivalent).removedStocks))) := by
  obtain ⟨hH, hR, -⟩ := runStrategy_strong_components priceData asOf heldSymbols topN band
    rankedSymbols cashEquivalent
  rw [hH, hR]
  have hc := classifyHeld_mem (rankedSymbols.map stripNS) topN band
    (stripNS cashEquivalent) heldSymbols sym
  constructor
  · intro hcash
    constructor
    · rw [hc.2]
      exact ⟨hmem, Or.inl hcash⟩
    · rw [hc.1]
      rintro ⟨-, hne, -⟩
      exact hne hcash
  · intro hne
    constructor
    · rw [hc.1]
      constructor
      · rintro ⟨-, -, hr, hb⟩
        exact ⟨hr, hb⟩
      · rintro ⟨hr, hb⟩
        exact ⟨hmem, hne, hr, hb⟩
    · intro hnh
      rw [hc.1] at hnh
      rw [hc.2]
      push_neg at hnh
      by_cases hr : sym ∈ rankedSymbols.map stripNS
      · have := hnh hmem hne hr
        exact ⟨hmem, Or.inr (Or.inr (by omega))⟩
      · exact ⟨hmem, Or.inr (Or.inl hr)⟩

/-- C7 witness: held symbol `"AAA"`, ranked first with `top_n = 1`,
`band = 0`, stays held; claim hypotheses discharged concretely. -/
theorem held_band_rule_witness :
    ("AAA" ∈ (runStrategy [] 0 ["AAA"] 1 0 true ["AAA.NS"]
        "LIQUIDBEES.NS").heldStocks ↔
      "AAA" ∈ (["AAA.NS"].map stripNS) ∧
        firstIdx (["AAA.NS"].map stripNS) "AAA" + 1 ≤ 1 + 0) ∧
    ("AAA" ∉ (runStrategy [] 0 ["AAA"] 1 0 true ["AAA.NS"]
        "LIQUIDBEES.NS").heldStocks →
      "AAA" ∈ (runStrategy [] 0 ["AAA"] 1 0 true ["AAA.NS"]
        "LIQUIDBEES.NS").removedStocks) :=
  (held_band_rule [] 0 ["AAA"] 1 0 ["AAA.NS"] "LIQUIDBEES.NS" "AAA"
    (by decide)).2 (by decide)

/-- C8 counterexample: when the market is weak but the portfolio already
consists of exactly the cash-equivalent position, the classifier returns
*empty* buckets — the held symbol is *not* placed in `removed`, refuting
"every held symbol lands in removed ... regardless of which symbols are
held". -/
theorem weak_market_claim_counterexample :
    (runStrategy [] 0 ["LIQUIDBEES"] 15 5 false [] "LIQUIDBEES.NS").removedStocks = [] ∧
    "LIQUIDBEES" ∉ (runStrategy [] 0 ["LIQUIDBEES"] 15 5 false []
      "LIQUIDBEES.NS").removedStocks := by
  refine ⟨by decide, by decide⟩

/-- C8 (amended) — weak-market short-circuit: when the market-strength
predicate is false, the classifier returns all held symbols in `removed`
with empty held/new lists, *unless* the portfolio is already exactly the
single cash-equivalent position, in which case every bucket is empty (no
action needed). -/
theorem weak_market_classification (priceData : List (String × List (ℕ × ℚ)))
    (asOf : ℕ) (heldSymbols : List String) (topN band : ℕ)
    (rankedSymbols : List String) (cashEquivalent : String) :
    ((stripNS cashEquivalent ∈ heldSymbols ∧ heldSymbols.length = 1) →
      runStrategy priceData asOf heldSymbols topN band false rankedSymbols
        cashEquivalent = ⟨[], "WEAK", [], [], [], []⟩) ∧
    (¬ (stripNS cashEquivalent ∈ heldSymbols ∧ heldSymbols.length = 1) →
      (runStrategy priceData asOf heldSymbols topN band false rankedSymbols
        cashEquivalent).removedStocks = heldSymbols ∧
      (runStrategy priceData asOf heldSymbols topN band false rankedSymbols
        cashEquivalent).heldStocks = [] ∧
      (runStrategy priceData asOf heldSymbols topN band false rankedSymbols
        cashEquivalent).newEntries = []) := by
  constructor
  · intro h
    simp [runStrategy, h]
  · intro h
    simp [runStrategy, h]

/-- C8 witness: two held symbols in a weak market are both returned in
`removed`, with empty held and new lists. -/
theorem weak_market_classification_witness :
    (¬ (stripNS "LIQUIDBEES.NS" ∈ ["A", "B"] ∧ (["A", "B"] : List String).length = 1) →
      (runStrategy [] 0 ["A", "B"] 15 5 false [] "LIQUIDBEES.NS").removedStocks =
        ["A", "B"] ∧
      (runStrategy [] 0 ["A", "B"] 15 5 false [] "LIQUIDBEES.NS").heldStocks = [] ∧
      (runStrategy [] 0 ["A", "B"] 15 5 false [] "LIQUIDBEES.NS").newEntries = []) :=
  (weak_market_classification [] 0 ["A", "B"] 15 5 [] "LIQUIDBEES.NS").2

/-- C9 — the jump filter (confirmed): in a strong market, every candidate
new entry whose single-day return on the rebalance date exceeds the 15%
threshold is excluded from the new-entries output; nothing is substituted
in its place — the output is a sub-sequence of the raw candidate list (so
it can be shorter than the `top_n − |held|` open slots); candidates that
are not skipped all survive; and candidates with a missing price series,
an absent rebalance date, or fewer than two rows of history are never
skipped. -/
theorem jump_filter_semantics (priceData : List (String × List (ℕ × ℚ))) (asOf : ℕ)
    (heldSymbols : List String) (topN band : ℕ) (rankedSymbols : List String)
    (cashEquivalent : String) :
    (∀ s ∈ rawNewCandidates (rankedSymbols.map stripNS)
        (runStrategy priceData asOf heldSymbols topN band true rankedSymbols
          cashEquivalent).heldStocks topN,
      shouldSkipJump priceData asOf s = true →
        s ∉ (runStrategy priceData asOf heldSymbols topN band true rankedSymbols
          cashEquivalent).newEntries) ∧
    (runStrategy priceData asOf heldSymbols topN band true rankedSymbols
        cashEquivalent).newEntries.Sublist
      (rawNewCandidates (rankedSymbols.map stripNS)
        (runStrategy priceData asOf heldSymbols topN band true rankedSymbols
          cashEquivalent).heldStocks topN) ∧
    (∀ s ∈ rawNewCandidates (rankedSymbols.map stripNS)
        (runStrategy priceData asOf heldSymbols topN band true rankedSymbols
          cashEquivalent).heldStocks topN,
      shouldSkipJump priceData asOf s = false →
        s ∈ (runStrategy priceData asOf heldSymbols topN band true rankedSymbols
          cashEquivalent).newEntries) ∧
    (∀ s, lookupSeries priceData (if hasNS s then s else s ++ ".NS") = none →
      shouldSkipJump priceData asOf s = false) ∧
    (∀ s df, lookupSeries priceData (if hasNS s then s else s ++ ".NS") = some df →
      (asOf ∉ df.map Prod.fst ∨
        (df.filter (fun e => decide (e.1 ≤ asOf))).length < 2) →
      shouldSkipJump priceData asOf s = false) := by
  obtain ⟨hH, -, hN⟩ := runStrategy_strong_components priceData asOf heldSymbols topN band
    rankedSymbols cashEquivalent
  rw [hN, hH]
  refine ⟨?_, ?_, ?_, ?_, ?_⟩
  · intro s hs hskip hmem
    rw [List.mem_filter] at hmem
    rw [hskip] at hmem
    simp at hmem
  · exact List.filter_sublist _
  · intro s hs hskip
    rw [List.mem_filter, hskip]
    exact ⟨hs, rfl⟩
  · intro s hlook
    rw [shouldSkipJump]
    simp only [hlook]
  · intro s df hlook hcond
    rw [shouldSkipJump]
    simp only [hlook]
    rcases hcond with hout | hlen
    · rw [if_pos hout]
    · by_cases hin : asOf ∉ df.map Prod.fst
      · rw [if_pos hin]
      · rw [if_neg hin, if_pos hlen]

/-- C9 witness: one candidate `"J"` whose close jumps from 100 to 120
(+20% > 15%) on the rebalance date is excluded from the new entries. -/
theorem jump_filter_semantics_witness :
    "J" ∉ (runStrategy [("J.NS", [(0, (100 : ℚ)), (1, 120)])] 1 [] 1 0 true
      ["J.NS"] "LIQUIDBEES.NS").newEntries :=
  (jump_filter_semantics [("J.NS", [(0, (100 : ℚ)), (1, 120)])] 1 [] 1 0
    ["J.NS"] "LIQUIDBEES.NS").1 "J" (by decide)
    (by
      have hstr : ("J" ++ ".NS" : String) = "J.NS" := by decide
      rw [shouldSkipJump]
      norm_num [hstr, lookupSeries, hasNS, containsNSList, sortNatAsc, insertNatAsc,
        firstIdx, lookupClose, List.filter, List.getD])

/-! ## Planner lemmas -/

theorem twoDec_intCast (k : ℤ) : TwoDec (k : ℚ) := by
  unfold TwoDec
  rw [show (100 : ℚ) * (k : ℚ) = ((100 * k : ℤ) : ℚ) by push_cast; ring]
  exact Rat.den_intCast _

theorem le_listMaxQ {x : ℚ} {l : List ℚ} (h : x ∈ l) : x ≤ listMaxQ l := by
  induction l with
  | nil => simp at h
  | cons y ys ih =>
    rw [listMaxQ]
    rcases List.mem_cons.mp h with rfl | h
    · exact le_max_left _ _
    · exact le_trans (ih h) (le_max_right _ _)

theorem mem_insertByGapDesc {x y : RTarget × ℚ} {l : List (RTarget × ℚ)} :
    y ∈ insertByGapDesc x l ↔ y = x ∨ y ∈ l := by
  induction l with
  | nil => simp [insertByGapDesc]
  | cons z zs ih =>
    rw [insertByGapDesc]
    by_cases hc : x.2 ≥ z.2
    · simp [if_pos hc]
    · rw [if_neg hc]
      simp only [List.mem_cons, ih]
      tauto

theorem mem_sortByGapDesc {y : RTarget × ℚ} {l : List (RTarget × ℚ)} :
    y ∈ sortByGapDesc l ↔ y ∈ l := by
  induction l with
  | nil => simp [sortByGapDesc]
  | cons z zs ih =>
    rw [sortByGapDesc, mem_insertByGapDesc]
    simp [ih]

theorem length_insertByGapDesc (x : RTarget × ℚ) (l : List (RTarget × ℚ)) :
    (insertByGapDesc x l).length = l.length + 1 := by
  induction l with
  | nil => simp [insertByGapDesc]
  | cons z zs ih =>
    rw [insertByGapDesc]
    by_cases hc : x.2 ≥ z.2
    · simp [if_pos hc]
    · rw [if_neg hc]
      simp [ih]

theorem length_sortByGapDesc (l : List (RTarget × ℚ)) :
    (sortByGapDesc l).length = l.length := by
  induction l with
  | nil => rfl
  | cons z zs ih =>
    rw [sortByGapDesc, length_insertByGapDesc, ih, List.length_cons]

theorem mem_insertByPriceAsc {lc : List (String × ℚ)} {x y : String} {l : List String} :
    y ∈ insertByPriceAsc lc x l ↔ y = x ∨ y ∈ l := by
  induction l with
  | nil => simp [insertByPriceAsc]
  | cons z zs ih =>
    rw [insertByPriceAsc]
    by_cases hc : (lookupQ lc x).getD 0 ≤ (lookupQ lc z).getD 0
    · simp [if_pos hc]
    · rw [if_neg hc]
      simp only [List.mem_cons, ih]
      tauto

theorem mem_sortByPriceAsc {lc : List (String × ℚ)} {y : String} {l : List String} :
    y ∈ sortByPriceAsc lc l ↔ y ∈ l := by
  induction l with
  | nil => simp [sortByPriceAsc]
  | cons z zs ih =>
    rw [sortByPriceAsc, mem_insertByPriceAsc]
    simp [ih]

/-- Step-style unfolding of the fuelled while loop, convenient for both
symbolic reasoning and concrete evaluation. -/
theorem roundLoopFuel_unfold (holdings : List RTarget) (minPrice : ℚ) (n : ℕ) (r : ℚ) :
    roundLoopFuel holdings minPrice n r =
      if n = 0 then ([], r)
      else if r < minPrice then ([], r)
      else
        let ro := roundOrders holdings r
        if ro = [] then ([], r)
        else
          let r2 := r - sumInvested ro
          if r2 < minPrice then (ro, r2)
          else
            let res := roundLoopFuel holdings minPrice (n - 1) r2
            (ro ++ res.1, res.2) := by
  cases n with
  | zero => simp [roundLoopFuel]
  | succ m => simp [roundLoopFuel]

/-- Orders emitted by the gap-fill loop all have positive quantity. -/
theorem fillFold_quantity_pos (rm : String → Option ℤ) (rows : List (RTarget × ℚ))
    (acc : List Order) (r : ℚ) :
    ∀ o ∈ (fillFold rm rows acc r).1, o ∈ acc ∨ 0 < o.quantity := by
  induction rows generalizing acc r with
  | nil => intro o ho; exact Or.inl ho
  | cons x rest ih =>
    obtain ⟨t, gap⟩ := x
    intro o ho
    rw [fillFold] at ho
    by_cases hr : r ≤ 0
    · rw [if_pos hr] at ho
      exact Or.inl ho
    · rw [if_neg hr] at ho
      simp only at ho
      by_cases hb : 0 < min ⌊r / t.price.getD 0⌋ ⌊gap / t.price.getD 0⌋
      · rw [if_pos hb] at ho
        rcases ih _ _ o ho with hacc | hpos
        · rcases List.mem_append.mp hacc with h | h
          · exact Or.inl h
          · simp only [List.mem_singleton] at h
            subst h
            exact Or.inr hb
        · exact Or.inr hpos
      · rw [if_neg hb] at ho
        exact ih _ _ o ho

/-- Orders emitted by `_fill_underweight_gaps_only` all have positive
quantity. -/
theorem fillUnderweight_quantity_pos (targets : List RTarget) (c tW : ℚ)
    (rm : String → Option ℤ) :
    ∀ o ∈ fillUnderweightGapsOnly targets c tW rm, 0 < o.quantity := by
  intro o ho
  rw [fillUnderweightGapsOnly] at ho
  by_cases h1 : targets = []
  · rw [if_pos h1] at ho; simp at ho
  · rw [if_neg h1] at ho
    by_cases h2 : ¬ targets.all (fun t => t.price.isSome)
    · rw [if_pos h2] at ho; simp at ho
    · rw [if_neg h2] at ho
      simp only at ho
      rcases fillFold_quantity_pos rm _ [] c o ho with h | h
      · simp at h
      · exact h

/-- Orders emitted by one round of the deployment loop all have positive
quantity. -/
theorem roundOrdersAux_quantity_pos (per r : ℚ) (l : List RTarget) :
    ∀ o ∈ roundOrdersAux per r l, 0 < o.quantity := by
  induction l with
  | nil => intro o ho; simp [roundOrdersAux] at ho
  | cons row rest ih =>
    intro o ho
    rw [roundOrdersAux] at ho
    by_cases hc : 0 < (if per ≥ row.price.getD 0 then
        max 1 ⌊per / row.price.getD 0⌋ else 0) ∧
        ((if per ≥ row.price.getD 0 then
          max 1 ⌊per / row.price.getD 0⌋ else 0 : ℤ) : ℚ) * row.price.getD 0 ≤ r
    · rw [if_pos hc] at ho
      rcases List.mem_cons.mp ho with rfl | h
      · exact hc.1
      · exact ih o h
    · rw [if_neg hc] at ho
      exact ih o ho

theorem roundOrders_quantity_pos (holdings : List RTarget) (r : ℚ) :
    ∀ o ∈ roundOrders holdings r, 0 < o.quantity := by
  intro o ho
  rw [roundOrders] at ho
  exact roundOrdersAux_quantity_pos _ _ _ o ho

/-- Orders accumulated by the fuelled while loop all have positive
quantity. -/
theorem roundLoopFuel_quantity_pos (holdings : List RTarget) (minPrice : ℚ) (n : ℕ)
    (r : ℚ) : ∀ o ∈ (roundLoopFuel holdings minPrice n r).1, 0 < o.quantity := by
  induction n generalizing r with
  | zero => intro o ho; simp [roundLoopFuel] at ho
  | succ m ih =>
    intro o ho
    rw [roundLoopFuel] at ho
    by_cases h1 : r < minPrice
    · rw [if_pos h1] at ho; simp at ho
    · rw [if_neg h1] at ho
      simp only at ho
      by_cases h2 : roundOrders holdings r = []
      · rw [if_pos h2] at ho; simp at ho
      · rw [if_neg h2] at ho
        by_cases h3 : r - sumInvested (roundOrders holdings r) < minPrice
        · rw [if_pos h3] at ho
          exact roundOrders_quantity_pos holdings r o ho
        · rw [if_neg h3] at ho
          simp only at ho
          rcases List.mem_append.mp ho with h | h
          · exact roundOrders_quantity_pos holdings r o h
          · exact ih _ o h

/-- Per-symbol consolidation preserves positivity of quantities. -/
theorem addBySymbol_quantity_pos (acc : List Order) (x : Order)
    (hacc : ∀ o ∈ acc, 0 < o.quantity) (hx : 0 < x.quantity) :
    ∀ o ∈ addBySymbol acc x, 0 < o.quantity := by
  induction acc with
  | nil =>
    intro o ho
    rw [addBySymbol] at ho
    simp only [List.mem_singleton] at ho
    subst ho; exact hx
  | cons y ys ih =>
    intro o ho
    rw [addBySymbol] at ho
    by_cases hc : y.symbol = x.symbol
    · rw [if_pos hc] at ho
      rcases List.mem_cons.mp ho with rfl | h
      · have hy := hacc y (by simp)
        simp only
        positivity
      · exact hacc o (List.mem_cons_of_mem _ h)
    · rw [if_neg hc] at ho
      rcases List.mem_cons.mp ho with rfl | h
      · exact hacc o (by simp)
      · exact ih (fun o ho => hacc o (List.mem_cons_of_mem _ ho)) o h

theorem consolidateBySymbol_quantity_pos (orders : List Order)
    (h : ∀ o ∈ orders, 0 < o.quantity) :
    ∀ o ∈ consolidateBySymbol orders, 0 < o.quantity := by
  rw [consolidateBySymbol]
  have hgen : ∀ (l : List Order) (acc : List Order),
      (∀ o ∈ acc, 0 < o.quantity) → (∀ o ∈ l, 0 < o.quantity) →
      ∀ o ∈ l.foldl addBySymbol acc, 0 < o.quantity := by
    intro l
    induction l with
    | nil => intro acc hacc _ o ho; exact hacc o ho
    | cons x xs ih =>
      intro acc hacc hl o ho
      rw [List.foldl_cons] at ho
      exact ih (addBySymbol acc x)
        (addBySymbol_quantity_pos acc x hacc (hl x (by simp)))
        (fun o ho => hl o (List.mem_cons_of_mem _ ho)) o ho
  exact hgen orders [] (by simp) h


theorem roundLoopFuel_zero (holdings : List RTarget) (minPrice : ℚ) (r : ℚ) :
    roundLoopFuel holdings minPrice 0 r = ([], r) := rfl

/-- Guarded step form of the loop, suitable for stepwise evaluation. -/
theorem roundLoopFuel_step (holdings : List RTarget) (minPrice : ℚ) (n : ℕ) (r : ℚ)
    (hn : n ≠ 0) :
    roundLoopFuel holdings minPrice n r =
      if r < minPrice then ([], r)
      else
        let ro := roundOrders holdings r
        if ro = [] then ([], r)
        else
          let r2 := r - sumInvested ro
          if r2 < minPrice then (ro, r2)
          else
            let res := roundLoopFuel holdings minPrice (n - 1) r2
            (ro ++ res.1, res.2) := by
  cases n with
  | zero => exact absurd rfl hn
  | succ m => simp [roundLoopFuel]

/-- C2 counterexample: with symbols A (price 10) and B (price 60), capital
100 and zero transaction cost, the per-stock allocation is 50, so B cannot
be purchased and receives zero quantity — yet the planner does *not*
return an empty plan: it silently drops B and plans A alone, refuting
"some stock would receive zero quantity ⟹ empty plan (no order rows)". -/
theorem insufficiency_guard_counterexample :
    (∀ o ∈ planEquityInvestment ["A", "B"] [("A", 10), ("B", 60)] 100
      (fun _ => none) 0, o.symbol ≠ "B") ∧
    planEquityInvestment ["A", "B"] [("A", 10), ("B", 60)] 100
      (fun _ => none) 0 ≠ [] := by
  have heval : planEquityInvestment ["A", "B"] [("A", 10), ("B", 60)] 100
      (fun _ => none) 0 = [⟨"A", none, .buy, 10, 10, 100⟩] := by
    norm_num [planEquityInvestment, planEquityPurchasable, planEquityHoldings, lookupQ,
      maximizeCapitalDeployment, fillUnderweightGapsOnly, sortByGapDesc,
      insertByGapDesc, fillFold, pyRound2, roundHalfEven, sumInvested, listMinQ,
      maximizeFuel, roundLoopFuel_zero, roundLoopFuel_step, roundOrders, roundOrdersAux,
      consolidateBySymbol, addBySymbol,
      show ("A" : String) ≠ "B" from by decide, show ("B" : String) ≠ "A" from by decide,
      show ¬ (["A", "B"] : List String) = [] from by decide,
      show ¬ (["A"] : List String) = [] from by decide]
  rw [heval]
  refine ⟨?_, by simp⟩
  intro o ho
  rw [List.mem_singleton] at ho
  subst ho
  simp

/-- C2 (amended) — insufficiency guard: `plan_equity_investment` returns
an empty plan when *no* symbol can buy at least one share at the initial
equal per-stock allocation (in particular for a single new stock priced
above the available capital); a symbol that individually cannot be funded
is silently dropped while the rest are planned; and no plan row ever
carries a zero (or negative) quantity. -/
theorem insufficiency_guard (symbols : List String) (latestClose : List (String × ℚ))
    (totalCapital : ℚ) (rankMap : String → Option ℤ) (tcPct : ℚ) :
    (planEquityPurchasable latestClose
        (if symbols = [] then 0
         else (totalCapital - totalCapital * tcPct) / (symbols.length : ℚ)) symbols = [] →
      planEquityInvestment symbols latestClose totalCapital rankMap tcPct = []) ∧
    (∀ o ∈ planEquityInvestment symbols latestClose totalCapital rankMap tcPct,
      0 < o.quantity) := by
  constructor
  · intro h
    simp [planEquityInvestment, h]
  · intro o ho
    rw [planEquityInvestment] at ho
    by_cases h1 : planEquityPurchasable latestClose
        (if symbols = [] then 0
         else (totalCapital - totalCapital * tcPct) / (symbols.length : ℚ)) symbols = []
    · rw [if_pos h1] at ho; simp at ho
    · rw [if_neg h1] at ho
      simp only at ho
      by_cases h2 : planEquityHoldings latestClose
          (planEquityPurchasable latestClose
            (if symbols = [] then 0
             else (totalCapital - totalCapital * tcPct) / (symbols.length : ℚ)) symbols) = []
      · rw [if_pos h2] at ho; simp at ho
      · rw [if_neg h2] at ho
        rw [List.mem_map] at ho
        obtain ⟨o2, ho2, hmap⟩ := ho
        have hq : o2.quantity = o.quantity := by rw [← hmap]
        rw [← hq]
        revert ho2
        rw [maximizeCapitalDeployment]
        rw [if_neg h2]
        intro ho2
        refine consolidateBySymbol_quantity_pos _ ?_ o2 ho2
        intro o3 ho3
        rcases List.mem_append.mp ho3 with h | h
        · exact fillUnderweight_quantity_pos _ _ _ _ o3 h
        · exact roundLoopFuel_quantity_pos _ _ _ _ o3 h

/-- C2 witness for the amended theorem, at the claim's headline scenario —
a single new stock priced 50 with capital 10 (per-stock allocation 10):
nothing is purchasable, and the positivity conjunct is instantiated. -/
theorem insufficiency_guard_witness :
    (planEquityPurchasable [("X", 50)]
        (if (["X"] : List String) = [] then 0
         else ((10 : ℚ) - 10 * 0) / ((["X"] : List String).length : ℚ)) ["X"] = [] →
      planEquityInvestment ["X"] [("X", 50)] 10 (fun _ => none) 0 = []) ∧
    (∀ o ∈ planEquityInvestment ["X"] [("X", 50)] 10 (fun _ => none) 0,
      0 < o.quantity) :=
  insufficiency_guard ["X"] [("X", 50)] 10 (fun _ => none) 0

/-- The scenario conclusion, closed: the guard hypothesis holds
concretely, so the plan is empty (no zero-quantity BUY row exists at
all). -/
theorem insufficiency_guard_witness_plan_empty :
    planEquityInvestment ["X"] [("X", 50)] 10 (fun _ => none) 0 = [] :=
  (insufficiency_guard ["X"] [("X", 50)] 10 (fun _ => none) 0).1
    (by norm_num [planEquityPurchasable, lookupQ])

/-- Under a constant gap equal to the target weight (all current values
zero), prices positive and exact two-decimal, and capital at least
`length × target`, every order the gap-fill loop emits is worth more than
`target − its price` and at most `target`: each stock gets exactly
`⌊target / price⌋` shares. -/
theorem fillFold_const_gap (rm : String → Option ℤ) (tW : ℚ) (htw : 0 ≤ tW)
    (rows : List (RTarget × ℚ)) :
    (∀ x ∈ rows, x.2 = tW ∧ ∃ p, x.1.price = some p ∧ 0 < p ∧ TwoDec p) →
    ∀ (acc : List Order) (r : ℚ), (rows.length : ℚ) * tW ≤ r →
    ∀ o ∈ (fillFold rm rows acc r).1,
      o ∈ acc ∨ (tW - o.price < o.invested ∧ o.invested ≤ tW) := by
  induction rows with
  | nil =>
    intro _ acc r _ o ho
    exact Or.inl ho
  | cons x rest ih =>
    obtain ⟨t, gap⟩ := x
    intro hrows acc r hr o ho
    obtain ⟨hgap, p, hp, hppos, hpdec⟩ := hrows (t, gap) (by simp)
    simp only at hgap
    simp only at hp
    have hlen : ((rest.length : ℚ) + 1) * tW ≤ r := by
      rw [List.length_cons] at hr
      push_cast at hr
      linarith
    have hrest : ∀ x ∈ rest, x.2 = tW ∧ ∃ p, x.1.price = some p ∧ 0 < p ∧ TwoDec p :=
      fun y hy => hrows y (List.mem_cons_of_mem _ hy)
    have hrtw : tW ≤ r := by nlinarith [Nat.cast_nonneg (α := ℚ) rest.length]
    rw [fillFold] at ho
    by_cases hr0 : r ≤ 0
    · rw [if_pos hr0] at ho
      exact Or.inl ho
    · rw [if_neg hr0] at ho
      simp only [hp, Option.getD_some] at ho
      rw [hgap] at ho
      have hfloor_le : ⌊tW / p⌋ ≤ ⌊r / p⌋ := Int.floor_le_floor (by gcongr)
      have hmin : min ⌊r / p⌋ ⌊tW / p⌋ = ⌊tW / p⌋ := min_eq_right hfloor_le
      rw [hmin] at ho
      have hinv_le : (⌊tW / p⌋ : ℚ) * p ≤ tW := by
        have h1 : (⌊tW / p⌋ : ℚ) ≤ tW / p := Int.floor_le _
        have h2 := mul_le_mul_of_nonneg_right h1 (le_of_lt hppos)
        rwa [div_mul_cancel₀ _ (ne_of_gt hppos)] at h2
      by_cases hpos : 0 < ⌊tW / p⌋
      · rw [if_pos hpos] at ho
        have hinv_gt : tW - p < (⌊tW / p⌋ : ℚ) * p := by
          have h1 : tW / p - 1 < (⌊tW / p⌋ : ℚ) := Int.sub_one_lt_floor _
          have h2 := mul_lt_mul_of_pos_right h1 hppos
          rw [sub_mul, one_mul, div_mul_cancel₀ _ (ne_of_gt hppos)] at h2
          linarith
        have hinvariant : ((rest.length : ℚ)) * tW ≤ r - (⌊tW / p⌋ : ℚ) * p := by
          nlinarith
        rcases ih hrest _ _ hinvariant o ho with hacc | hbound
        · rcases List.mem_append.mp hacc with h | h
          · exact Or.inl h
          · rw [List.mem_singleton] at h
            subst h
            refine Or.inr ⟨?_, ?_⟩
            · simp only [pyRound2_twoDec hpdec, pyRound2_twoDec (twoDec_intMul _ hpdec)]
              exact hinv_gt
            · simp only [pyRound2_twoDec (twoDec_intMul _ hpdec)]
              exact hinv_le
        · exact Or.inr hbound
      · rw [if_neg hpos] at ho
        have hinvariant : ((rest.length : ℚ)) * tW ≤ r := by nlinarith
        exact ih hrest _ _ hinvariant o ho

/-- C3 counterexample: prices 1 and 10 with capital 38 (zero transaction
cost).  The gap-fill pass leaves A at 19 and B at 10; the round-based
leftover loop then funnels everything into A (final invested 27 vs 10),
so `max(invested) − min(invested) = 17` is *not* below the most expensive
price 10, refuting the claimed convergence bound for the full
deployment pass. -/
theorem weight_convergence_counterexample :
    ¬ (∀ o₁ ∈ planEquityInvestment ["A", "B"] [("A", 1), ("B", 10)] 38
        (fun _ => none) 0,
       ∀ o₂ ∈ planEquityInvestment ["A", "B"] [("A", 1), ("B", 10)] 38
        (fun _ => none) 0,
       o₁.invested - o₂.invested <
         listMaxQ ((planEquityInvestment ["A", "B"] [("A", 1), ("B", 10)] 38
          (fun _ => none) 0).map (·.price))) := by
  have heval : planEquityInvestment ["A", "B"] [("A", 1), ("B", 10)] 38
      (fun _ => none) 0 =
      [⟨"A", none, .buy, 1, 27, 27⟩, ⟨"B", none, .buy, 10, 1, 10⟩] := by
    norm_num [planEquityInvestment, planEquityPurchasable, planEquityHoldings, lookupQ,
      maximizeCapitalDeployment, fillUnderweightGapsOnly, sortByGapDesc,
      insertByGapDesc, fillFold, pyRound2, roundHalfEven, sumInvested, listMinQ,
      maximizeFuel, roundLoopFuel_zero, roundLoopFuel_step, roundOrders, roundOrdersAux,
      consolidateBySymbol, addBySymbol, Int.toNat_ofNat,
      show Int.toNat 9 = (9 : ℕ) from rfl,
      show ("A" : String) ≠ "B" from by decide, show ("B" : String) ≠ "A" from by decide,
      show ¬ (["A", "B"] : List String) = [] from by decide,
      show ¬ ([⟨"A", some 1, 0⟩, ⟨"B", some 10, 0⟩] : List RTarget) = [] from by simp,
      show ¬ ([⟨"A", none, .buy, 1, 19, 19⟩, ⟨"B", none, .buy, 10, 1, 10⟩] :
        List Order) = [] from by simp]
  rw [heval]
  intro hclaim
  have h1 : (⟨"A", none, .buy, 1, 27, 27⟩ : Order) ∈
      [(⟨"A", none, .buy, 1, 27, 27⟩ : Order), ⟨"B", none, .buy, 10, 1, 10⟩] := by simp
  have h2 : (⟨"B", none, .buy, 10, 1, 10⟩ : Order) ∈
      [(⟨"A", none, .buy, 1, 27, 27⟩ : Order), ⟨"B", none, .buy, 10, 1, 10⟩] := by simp
  have := hclaim _ h1 _ h2
  norm_num [listMaxQ] at this

/-- C3 (amended) — weight convergence holds for the *conservative
gap-fill pass* (step 1 of `_maximize_capital_deployment`, which is the
whole of the equal-weight allocation for a fresh portfolio): starting
from zero current values with positive two-decimal prices and capital
covering `count × target`, every funded stock's invested value lies in
`(target − its price, target]`, hence any two rows' invested values
differ by less than the price of the most expensive funded symbol.  The
subsequent round-based leftover loop does not preserve this bound (see
the counterexample). -/
theorem gap_fill_weight_convergence (targets : List RTarget) (cap tW : ℚ)
    (rm : String → Option ℤ)
    (hcv : ∀ t ∈ targets, t.currentValue = 0)
    (hp : ∀ t ∈ targets, ∃ p, t.price = some p ∧ 0 < p ∧ TwoDec p)
    (htw : 0 ≤ tW) (hcap : (targets.length : ℚ) * tW ≤ cap) :
    (∀ o ∈ fillUnderweightGapsOnly targets cap tW rm,
      tW - o.price < o.invested ∧ o.invested ≤ tW) ∧
    (∀ o₁ ∈ fillUnderweightGapsOnly targets cap tW rm,
      ∀ o₂ ∈ fillUnderweightGapsOnly targets cap tW rm,
      o₁.invested - o₂.invested <
        listMaxQ ((fillUnderweightGapsOnly targets cap tW rm).map (·.price))) := by
  have hmain : ∀ o ∈ fillUnderweightGapsOnly targets cap tW rm,
      tW - o.price < o.invested ∧ o.invested ≤ tW := by
    intro o ho
    rw [fillUnderweightGapsOnly] at ho
    by_cases h1 : targets = []
    · rw [if_pos h1] at ho; simp at ho
    · rw [if_neg h1] at ho
      by_cases h2 : ¬ targets.all (fun t => t.price.isSome)
      · rw [if_pos h2] at ho; simp at ho
      · rw [if_neg h2] at ho
        simp only at ho
        have hrows : ∀ x ∈ sortByGapDesc
            ((targets.filter (fun t => decide (t.currentValue < tW))).map
              (fun t => (t, tW - t.currentValue))),
            x.2 = tW ∧ ∃ p, x.1.price = some p ∧ 0 < p ∧ TwoDec p := by
          intro x hx
          rw [mem_sortByGapDesc] at hx
          rw [List.mem_map] at hx
          obtain ⟨t, ht, rfl⟩ := hx
          have htmem := List.mem_of_mem_filter ht
          constructor
          · simp [hcv t htmem]
          · exact hp t htmem
        have hlen : ((sortByGapDesc
            ((targets.filter (fun t => decide (t.currentValue < tW))).map
              (fun t => (t, tW - t.currentValue)))).length : ℚ) * tW ≤ cap := by
          have h3 : (sortByGapDesc
              ((targets.filter (fun t => decide (t.currentValue < tW))).map
                (fun t => (t, tW - t.currentValue)))).length ≤ targets.length := by
            rw [length_sortByGapDesc, List.length_map]
            exact List.length_filter_le _ _
          calc ((sortByGapDesc _).length : ℚ) * tW
              ≤ (targets.length : ℚ) * tW := by
                apply mul_le_mul_of_nonneg_right _ htw
                exact_mod_cast h3
            _ ≤ cap := hcap
        rcases fillFold_const_gap rm tW htw _ hrows [] cap hlen o ho with h | h
        · simp at h
        · exact h
  refine ⟨hmain, ?_⟩
  intro o₁ h₁ o₂ h₂
  have hb₁ := hmain o₁ h₁
  have hb₂ := hmain o₂ h₂
  have hpmax : o₂.price ≤ listMaxQ
      ((fillUnderweightGapsOnly targets cap tW rm).map (·.price)) :=
    le_listMaxQ (List.mem_map_of_mem _ h₂)
  linarith

/-- C3 amended witness: two fresh stocks priced 1 and 10, capital 38,
target 19 — the gap-fill pass funds them at 19 and 10, within one share
of the target. -/
theorem gap_fill_weight_convergence_witness :
    (∀ o ∈ fillUnderweightGapsOnly [⟨"A", some 1, 0⟩, ⟨"B", some 10, 0⟩] 38 19
      (fun _ => none), (19 : ℚ) - o.price < o.invested ∧ o.invested ≤ 19) ∧
    (∀ o₁ ∈ fillUnderweightGapsOnly [⟨"A", some 1, 0⟩, ⟨"B", some 10, 0⟩] 38 19
      (fun _ => none),
      ∀ o₂ ∈ fillUnderweightGapsOnly [⟨"A", some 1, 0⟩, ⟨"B", some 10, 0⟩] 38 19
        (fun _ => none),
      o₁.invested - o₂.invested <
        listMaxQ ((fillUnderweightGapsOnly [⟨"A", some 1, 0⟩, ⟨"B", some 10, 0⟩] 38 19
          (fun _ => none)).map (·.price))) :=
  gap_fill_weight_convergence [⟨"A", some 1, 0⟩, ⟨"B", some 10, 0⟩] 38 19 (fun _ => none)
    (by intro t ht; fin_cases ht <;> rfl)
    (by
      intro t ht
      fin_cases ht
      · exact ⟨1, rfl, by norm_num, by exact_mod_cast twoDec_intCast 1⟩
      · exact ⟨10, rfl, by norm_num, by exact_mod_cast twoDec_intCast 10⟩)
    (by norm_num) (by norm_num)

/-- C10 — the while loop of `_maximize_capital_deployment` does *not*
terminate on every holdings table with strictly positive prices: with two
stocks priced 0.004 and the loop entered at remaining capital 0.008, each
round allocates one share per stock, but the capital is reduced by the
sum of the *rounded* `Invested` values and `round(0.004, 2) = 0.0`, so
the remaining capital never decreases while the loop condition stays
true — the Python loop spins forever (the code's own "break to avoid
infinite loop" comment documents the intent that it should not).  In the
fuel-indexed model: one round allocates, leaves the capital unchanged
and above the minimum price, and the accumulated order list never
stabilises as fuel grows. -/
theorem deployment_loop_diverges :
    roundOrders [⟨"A", some (1/250), 0⟩, ⟨"B", some (1/250), 0⟩] (1/125) ≠ [] ∧
    (1/125 : ℚ) - sumInvested (roundOrders
      [⟨"A", some (1/250), 0⟩, ⟨"B", some (1/250), 0⟩] (1/125)) = 1/125 ∧
    listMinQ (([⟨"A", some (1/250), 0⟩, ⟨"B", some (1/250), 0⟩] : List RTarget).map
      (fun t => t.price.getD 0)) ≤ 1/125 ∧
    (roundLoopFuel [⟨"A", some (1/250), 0⟩, ⟨"B", some (1/250), 0⟩]
        (1/250) 2 (1/125)).1 ≠
      (roundLoopFuel [⟨"A", some (1/250), 0⟩, ⟨"B", some (1/250), 0⟩]
        (1/250) 3 (1/125)).1 := by
  have hro : roundOrders [⟨"A", some (1/250), 0⟩, ⟨"B", some (1/250), 0⟩] (1/125) =
      [⟨"A", none, .buy, 0, 1, 0⟩, ⟨"B", none, .buy, 0, 1, 0⟩] := by
    norm_num [roundOrders, roundOrdersAux, pyRound2, roundHalfEven]
  refine ⟨by rw [hro]; simp, ?_, ?_, ?_⟩
  · rw [hro]
    norm_num [sumInvested]
  · norm_num [listMinQ]
  · norm_num [roundLoopFuel_zero, roundLoopFuel_step, hro, sumInvested,
      show ¬ ([⟨"A", none, .buy, 0, 1, 0⟩, ⟨"B", none, .buy, 0, 1, 0⟩] :
        List Order) = [] from by simp]

/-! ## Capital-conservation lemmas (C1) -/

/-- When the records carry no `price` key (the rebalance path),
`_fill_underweight_gaps_only` fails its required-column check and
allocates nothing. -/
theorem fillUnderweight_noPriceCol (targets : List RTarget) (c tW : ℚ)
    (rm : String → Option ℤ) (h : ∀ t ∈ targets, t.price = none) :
    fillUnderweightGapsOnly targets c tW rm = [] := by
  rw [fillUnderweightGapsOnly]
  rcases targets with _ | ⟨t, rest⟩
  · rw [if_pos rfl]
  · rw [if_neg (by simp)]
    rw [if_pos]
    simp only [List.all_cons, Bool.and_eq_true, not_and]
    intro ht
    rw [h t (by simp)] at ht
    simp at ht

theorem sumInvested_append (l₁ l₂ : List Order) :
    sumInvested (l₁ ++ l₂) = sumInvested l₁ + sumInvested l₂ := by
  simp [sumInvested]

theorem sumInvestedBy_append (a : PAction) (l₁ l₂ : List Order) :
    sumInvestedBy a (l₁ ++ l₂) = sumInvestedBy a l₁ + sumInvestedBy a l₂ := by
  simp [sumInvestedBy]

theorem sumInvestedBy_of_forall_eq (a : PAction) (l : List Order)
    (h : ∀ o ∈ l, o.action = a) : sumInvestedBy a l = sumInvested l := by
  rw [sumInvestedBy, sumInvested, List.filter_eq_self.mpr]
  intro o ho
  simp [h o ho]

theorem sumInvestedBy_of_forall_ne (a : PAction) (l : List Order)
    (h : ∀ o ∈ l, o.action ≠ a) : sumInvestedBy a l = 0 := by
  rw [sumInvestedBy, List.filter_eq_nil_iff.mpr, List.map_nil, List.sum_nil]
  intro o ho
  simp [h o ho]

/-- Accounting of the new-entries pass: the cumulative `used` never
shrinks, never exceeds the freed capital, and the emitted rows' (rounded)
`Invested` column sums to exactly the growth of `used`. -/
theorem newEntriesFold_spend (latestClose : List (String × ℚ))
    (rankMap : String → Option ℤ) (targetW freed : ℚ) (syms : List String)
    (hp : ∀ s ∈ syms, ∀ p, lookupQ latestClose s = some p → 0 < p ∧ TwoDec p) :
    ∀ (acc : List Order) (used : ℚ), used ≤ freed →
      used ≤ (newEntriesFold latestClose rankMap targetW freed syms acc used).2 ∧
      (newEntriesFold latestClose rankMap targetW freed syms acc used).2 ≤ freed ∧
      sumInvested (newEntriesFold latestClose rankMap targetW freed syms acc used).1 =
        sumInvested acc +
          ((newEntriesFold latestClose rankMap targetW freed syms acc used).2 - used) := by
  induction syms with
  | nil =>
    intro acc used hused
    rw [newEntriesFold]
    exact ⟨le_refl _, hused, by ring⟩
  | cons s rest ih =>
    intro acc used hused
    have hrest : ∀ s ∈ rest, ∀ p, lookupQ latestClose s = some p → 0 < p ∧ TwoDec p :=
      fun x hx => hp x (List.mem_cons_of_mem _ hx)
    rw [newEntriesFold]
    rcases hlook : lookupQ latestClose s with _ | p
    · exact ih hrest acc used hused
    · obtain ⟨hppos, hpdec⟩ := hp s (by simp) p hlook
      simp only
      by_cases hguard : 0 < ⌊min targetW (freed - used) / p⌋ ∧
          used + (⌊min targetW (freed - used) / p⌋ : ℚ) * p ≤ freed
      · rw [if_pos hguard]
        have hinvpos : 0 < (⌊min targetW (freed - used) / p⌋ : ℚ) * p := by
          have h1 : (0 : ℚ) < (⌊min targetW (freed - used) / p⌋ : ℚ) := by
            exact_mod_cast hguard.1
          positivity
        obtain ⟨h1, h2, h3⟩ := ih hrest _ _ hguard.2
        refine ⟨by linarith, h2, ?_⟩
        rw [h3, sumInvested_append]
        simp only [sumInvested, List.map_cons, List.map_nil, List.sum_cons, List.sum_nil]
        rw [pyRound2_twoDec (twoDec_intMul _ hpdec)]
        ring
      · rw [if_neg hguard]
        exact ih hrest acc used hused

theorem newEntriesFold_action (latestClose : List (String × ℚ))
    (rankMap : String → Option ℤ) (targetW freed : ℚ) (syms : List String) :
    ∀ (acc : List Order) (used : ℚ),
      ∀ o ∈ (newEntriesFold latestClose rankMap targetW freed syms acc used).1,
      o ∈ acc ∨ o.action = PAction.buy := by
  induction syms with
  | nil =>
    intro acc used o ho
    rw [newEntriesFold] at ho
    exact Or.inl ho
  | cons s rest ih =>
    intro acc used o ho
    rw [newEntriesFold] at ho
    rcases hlook : lookupQ latestClose s with _ | p
    · rw [hlook] at ho
      exact ih acc used o ho
    · rw [hlook] at ho
      simp only at ho
      by_cases hguard : 0 < ⌊min targetW (freed - used) / p⌋ ∧
          used + (⌊min targetW (freed - used) / p⌋ : ℚ) * p ≤ freed
      · rw [if_pos hguard] at ho
        rcases ih _ _ o ho with hacc | hbuy
        · rcases List.mem_append.mp hacc with h | h
          · exact Or.inl h
          · rw [List.mem_singleton] at h
            subst h
            exact Or.inr rfl
        · exact Or.inr hbuy
      · rw [if_neg hguard] at ho
        exact ih _ _ o ho

/-- The fallback scan spends at most the remaining capital (prices are
exact two-decimal quantities; a hit implies a positive price). -/
theorem fallbackScan_spend (latestClose : List (String × ℚ))
    (rankMap : String → Option ℤ) (r : ℚ) (hr : 0 < r) (l : List String)
    (h2d : ∀ s ∈ l, TwoDec ((lookupQ latestClose s).getD 0)) :
    sumInvested (fallbackScan latestClose rankMap r l) ≤ r := by
  induction l with
  | nil =>
    rw [fallbackScan]
    simp only [sumInvested, List.map_nil, List.sum_nil]
    exact le_of_lt hr
  | cons s rest ih =>
    rw [fallbackScan]
    by_cases hq : 0 < ⌊r / (lookupQ latestClose s).getD 0⌋
    · rw [if_pos hq]
      have hppos : 0 < (lookupQ latestClose s).getD 0 := by
        by_contra hle
        push_neg at hle
        rcases lt_or_eq_of_le hle with hlt | heq
        · have hneg : r / (lookupQ latestClose s).getD 0 < 0 := div_neg_of_pos_of_neg hr hlt
          have := Int.floor_le (r / (lookupQ latestClose s).getD 0)
          have : (⌊r / (lookupQ latestClose s).getD 0⌋ : ℚ) < 0 := lt_of_le_of_lt this hneg
          exact absurd hq (by push_neg; exact_mod_cast le_of_lt this)
        · rw [heq] at hq
          rw [div_zero] at hq
          norm_num at hq
      simp only [sumInvested, List.map_cons, List.map_nil, List.sum_cons, List.sum_nil]
      rw [pyRound2_twoDec (twoDec_intMul _ (h2d s (by simp)))]
      have h1 : (⌊r / (lookupQ latestClose s).getD 0⌋ : ℚ) ≤
          r / (lookupQ latestClose s).getD 0 := Int.floor_le _
      have h2 := mul_le_mul_of_nonneg_right h1 (le_of_lt hppos)
      rw [div_mul_cancel₀ _ (ne_of_gt hppos)] at h2
      linarith
    · rw [if_neg hq]
      exact ih (fun x hx => h2d x (List.mem_cons_of_mem _ hx))

theorem fallbackScan_action (latestClose : List (String × ℚ))
    (rankMap : String → Option ℤ) (r : ℚ) (l : List String) :
    ∀ o ∈ fallbackScan latestClose rankMap r l, o.action = PAction.buy := by
  induction l with
  | nil => intro o ho; rw [fallbackScan] at ho; simp at ho
  | cons s rest ih =>
    intro o ho
    rw [fallbackScan] at ho
    by_cases hq : 0 < ⌊r / (lookupQ latestClose s).getD 0⌋
    · rw [if_pos hq] at ho
      rw [List.mem_singleton] at ho
      subst ho
      rfl
    · rw [if_neg hq] at ho
      exact ih o ho

/-- The fallback allocation spends at most `max 0 remaining`. -/
theorem fallbackAlloc_spend (r : ℚ) (allAllocated universeSymbols : List String)
    (latestClose : List (String × ℚ)) (rankMap : String → Option ℤ)
    (h2d : ∀ s ∈ universeSymbols, TwoDec ((lookupQ latestClose s).getD 0)) :
    sumInvested (fallbackAllocCheapestSymbol r allAllocated universeSymbols
      latestClose rankMap) ≤ max 0 r := by
  rw [fallbackAllocCheapestSymbol]
  by_cases hr : r ≤ 0
  · rw [if_pos hr]
    simp [sumInvested]
  · rw [if_neg hr]
    push_neg at hr
    refine le_trans (fallbackScan_spend _ _ _ hr _ ?_) (le_max_right _ _)
    intro s hs
    rw [mem_sortByPriceAsc] at hs
    exact h2d s (List.mem_of_mem_filter hs)

theorem fallbackAlloc_action (r : ℚ) (allAllocated universeSymbols : List String)
    (latestClose : List (String × ℚ)) (rankMap : String → Option ℤ) :
    ∀ o ∈ fallbackAllocCheapestSymbol r allAllocated universeSymbols
      latestClose rankMap, o.action = PAction.buy := by
  intro o ho
  rw [fallbackAllocCheapestSymbol] at ho
  by_cases hr : r ≤ 0
  · rw [if_pos hr] at ho; simp at ho
  · rw [if_neg hr] at ho
    exact fallbackScan_action _ _ _ _ o ho

/-- Merging an order into the keyed accumulator adds its invested value
to the per-action sum for its own action and leaves the others alone. -/
theorem addKeyed_sumBy (a : PAction) (acc : List Order) (o : Order) :
    sumInvestedBy a (addKeyed acc o) =
      sumInvestedBy a acc + (if o.action = a then o.invested else 0) := by
  induction acc with
  | nil =>
    rw [addKeyed]
    by_cases ha : o.action = a
    · simp [sumInvestedBy, ha]
    · simp [sumInvestedBy, ha]
  | cons x xs ih =>
    rw [addKeyed]
    by_cases hk : x.symbol = o.symbol ∧ x.rank = o.rank ∧ x.action = o.action ∧
        x.price = o.price
    · rw [if_pos hk]
      by_cases ha : x.action = a
      · have hoa : o.action = a := hk.2.2.1 ▸ ha
        simp only [sumInvestedBy, List.filter_cons, decide_eq_true_eq]
        rw [if_pos ha, if_pos ha, if_pos hoa]
        simp only [List.map_cons, List.sum_cons]
        ring
      · have hoa : ¬ o.action = a := fun h => ha (hk.2.2.1.symm ▸ h)
        simp only [sumInvestedBy, List.filter_cons, decide_eq_true_eq]
        rw [if_neg ha, if_neg ha, if_neg hoa]
        ring
    · rw [if_neg hk]
      have ih2 := ih
      simp only [sumInvestedBy] at ih2
      by_cases ha : x.action = a
      · simp only [sumInvestedBy, List.filter_cons, decide_eq_true_eq]
        rw [if_pos ha, if_pos ha]
        simp only [List.map_cons, List.sum_cons]
        rw [ih2]
        ring
      · simp only [sumInvestedBy, List.filter_cons, decide_eq_true_eq]
        rw [if_neg ha, if_neg ha]
        exact ih2
/-- The keyed `groupby` aggregation preserves the per-action sum of
`Invested`. -/
theorem groupRows_sumBy (a : PAction) (l : List Order) :
    sumInvestedBy a (groupRows l) = sumInvestedBy a l := by
  rw [groupRows]
  have hgen : ∀ (l : List Order) (acc : List Order),
      sumInvestedBy a (l.foldl addKeyed acc) = sumInvestedBy a acc + sumInvestedBy a l := by
    intro l
    induction l with
    | nil => intro acc; simp [sumInvestedBy]
    | cons x xs ih =>
      intro acc
      rw [List.foldl_cons, ih, addKeyed_sumBy]
      by_cases hx : x.action = a
      · simp only [sumInvestedBy, List.filter_cons, decide_eq_true_eq]
        rw [if_pos hx, if_pos hx]
        simp only [List.map_cons, List.sum_cons]
        ring
      · simp only [sumInvestedBy, List.filter_cons, decide_eq_true_eq]
        rw [if_neg hx, if_neg hx]
        ring
  rw [hgen l []]
  simp [sumInvestedBy]

/-- The SELL rows' (rounded) `Invested` column sums to the removed rows'
exact `current_value` total when every value is a whole number of
paise. -/
theorem sumInvested_sellRows (dfRemoved : List PrevRow) (rankMap : String → Option ℤ)
    (h2d : ∀ r ∈ dfRemoved, TwoDec r.currentValue) :
    sumInvested (rebalanceSellRows dfRemoved rankMap) = rebalanceTotalSell dfRemoved := by
  induction dfRemoved with
  | nil => simp [rebalanceSellRows, rebalanceTotalSell, sumInvested]
  | cons r rest ih =>
    simp only [rebalanceSellRows, rebalanceTotalSell, List.map_cons, sumInvested,
      List.sum_cons] at ih ⊢
    rw [pyRound2_twoDec (h2d r (by simp))]
    rw [ih (fun x hx => h2d x (List.mem_cons_of_mem _ hx))]

theorem sellRows_action (dfRemoved : List PrevRow) (rankMap : String → Option ℤ) :
    ∀ o ∈ rebalanceSellRows dfRemoved rankMap, o.action = PAction.sell := by
  intro o ho
  rw [rebalanceSellRows, List.mem_map] at ho
  obtain ⟨r, -, rfl⟩ := ho
  rfl

theorem holdRows_action (dfHeld : List PrevRow) (rankMap : String → Option ℤ) :
    ∀ o ∈ rebalanceHoldRows dfHeld rankMap, o.action = PAction.hold := by
  intro o ho
  rw [rebalanceHoldRows, List.mem_map] at ho
  obtain ⟨r, -, rfl⟩ := ho
  rfl

/-- C1 — capital conservation of the rebalance planner (confirmed, with
the note that `plan_portfolio_rebalance` has *no cash input*: the freed
capital is realised entirely from the removed holdings' market value, the
spec's `cash` term being 0 on this interface).  For disjoint buckets with
every relevant symbol priced at a positive whole-paise price: the SELL
rows' `Invested` sums to exactly the freed capital before the cost
reservation (`Σ removed quantity × price`); the BUY rows' `Invested`
total never exceeds the usable capital (freed capital after the
round-trip cost reservation); and BUY total plus the unspent remainder
equals the usable capital. -/
theorem rebalance_capital_conservation
    (heldStocks newEntries removedStocks : List String)
    (previousHoldings : List PrevHolding) (latestClose : List (String × ℚ))
    (rankMap : String → Option ℤ) (tcPct : ℚ)
    (hprev : previousHoldings ≠ [])
    (hlen : heldStocks ≠ [] ∨ newEntries ≠ [])
    (hd1 : ∀ s ∈ heldStocks, s ∉ newEntries ∧ s ∉ removedStocks)
    (hd2 : ∀ s ∈ newEntries, s ∉ removedStocks)
    (hpprev : ∀ h ∈ previousHoldings,
      ∃ p, lookupQ latestClose h.symbol = some p ∧ 0 < p ∧ TwoDec p)
    (hpuniv : ∀ s ∈ heldStocks ++ newEntries,
      ∃ p, lookupQ latestClose s = some p ∧ 0 < p ∧ TwoDec p) :
    sumInvestedBy PAction.sell (planPortfolioRebalance heldStocks newEntries
        removedStocks previousHoldings latestClose rankMap tcPct) =
      rebalanceTotalSell (rebalanceDfRemoved previousHoldings latestClose
        removedStocks) ∧
    sumInvestedBy PAction.buy (planPortfolioRebalance heldStocks newEntries
        removedStocks previousHoldings latestClose rankMap tcPct) ≤
      rebalanceFreed (rebalanceDfRemoved previousHoldings latestClose removedStocks)
        tcPct ∧
    sumInvestedBy PAction.buy (planPortfolioRebalance heldStocks newEntries
        removedStocks previousHoldings latestClose rankMap tcPct) +
      (rebalanceFreed (rebalanceDfRemoved previousHoldings latestClose removedStocks)
          tcPct -
        sumInvestedBy PAction.buy (planPortfolioRebalance heldStocks newEntries
          removedStocks previousHoldings latestClose rankMap tcPct)) =
      rebalanceFreed (rebalanceDfRemoved previousHoldings latestClose removedStocks)
        tcPct := by
  set DH := rebalanceDfHeld previousHoldings latestClose heldStocks with hDHdef
  set DR := rebalanceDfRemoved previousHoldings latestClose removedStocks with hDRdef
  set F := rebalanceFreed DR tcPct with hFdef
  set T := rebalanceTarget DH DR tcPct heldStocks newEntries with hTdef
  set A := rebalanceSellRows DR rankMap with hAdef
  set NE := newEntriesFold latestClose rankMap T F newEntries [] 0 with hNEdef
  set HT := DH.map (fun r => (⟨r.symbol, none, r.currentValue⟩ : RTarget)) with hHTdef
  set HE := fillUnderweightGapsOnly HT (F - NE.2) T rankMap with hHEdef
  set B := fallbackAllocCheapestSymbol (F - (NE.2 + sumInvested HE))
    ((NE.1 ++ HE ++ A).map (·.symbol)) ((heldStocks ++ newEntries).dedup)
    latestClose rankMap with hBdef
  set E := rebalanceHoldRows DH rankMap with hEdef
  have hplan : planPortfolioRebalance heldStocks newEntries removedStocks
      previousHoldings latestClose rankMap tcPct =
      groupRows (A ++ B ++ NE.1 ++ HE ++ E) := by
    rw [planPortfolioRebalance, if_neg hprev]
  have hHE : HE = [] := by
    rw [hHEdef]
    apply fillUnderweight_noPriceCol
    intro t ht
    rw [hHTdef] at ht
    rw [List.mem_map] at ht
    obtain ⟨r, -, rfl⟩ := ht
    rfl
  have hFnn : 0 ≤ F := by rw [hFdef, rebalanceFreed]; exact le_max_left _ _
  have hpNew : ∀ s ∈ newEntries, ∀ p, lookupQ latestClose s = some p →
      0 < p ∧ TwoDec p := by
    intro s hs p hp
    obtain ⟨q, hl, hpos, hdec⟩ := hpuniv s (List.mem_append_right _ hs)
    rw [hl] at hp
    injection hp with hp
    subst hp
    exact ⟨hpos, hdec⟩
  have hNE := newEntriesFold_spend latestClose rankMap T F newEntries hpNew [] 0 hFnn
  have hallbuy_NE : ∀ o ∈ NE.1, o.action = PAction.buy := by
    intro o ho
    rcases newEntriesFold_action latestClose rankMap T F newEntries [] 0 o ho with h | h
    · simp at h
    · exact h
  have h2dDR : ∀ r ∈ DR, TwoDec r.currentValue := by
    intro r hr
    rw [hDRdef, rebalanceDfRemoved] at hr
    have hr2 := List.mem_of_mem_filter hr
    rw [prevRows, List.mem_map] at hr2
    obtain ⟨h, hmem, rfl⟩ := hr2
    obtain ⟨p, hl, -, hdec⟩ := hpprev h hmem
    simp only [hl, Option.getD_some]
    exact twoDec_natMul _ hdec
  have hsum : ∀ a, sumInvestedBy a (planPortfolioRebalance heldStocks newEntries
      removedStocks previousHoldings latestClose rankMap tcPct) =
      sumInvestedBy a A + sumInvestedBy a B + sumInvestedBy a NE.1 +
        sumInvestedBy a HE + sumInvestedBy a E := by
    intro a
    rw [hplan, groupRows_sumBy]
    simp only [sumInvestedBy_append]
  have hA_sell : sumInvestedBy PAction.sell A = rebalanceTotalSell DR := by
    rw [hAdef, sumInvestedBy_of_forall_eq _ _ (sellRows_action DR rankMap)]
    exact sumInvested_sellRows DR rankMap h2dDR
  have hA_buy : sumInvestedBy PAction.buy A = 0 := by
    rw [hAdef]
    apply sumInvestedBy_of_forall_ne
    intro o ho
    rw [sellRows_action DR rankMap o ho]
    simp
  have hE_sell : sumInvestedBy PAction.sell E = 0 := by
    rw [hEdef]
    apply sumInvestedBy_of_forall_ne
    intro o ho
    rw [holdRows_action DH rankMap o ho]
    simp
  have hE_buy : sumInvestedBy PAction.buy E = 0 := by
    rw [hEdef]
    apply sumInvestedBy_of_forall_ne
    intro o ho
    rw [holdRows_action DH rankMap o ho]
    simp
  have hC_sell : sumInvestedBy PAction.sell NE.1 = 0 := by
    apply sumInvestedBy_of_forall_ne
    intro o ho
    rw [hallbuy_NE o ho]
    simp
  have hB_sell : sumInvestedBy PAction.sell B = 0 := by
    rw [hBdef]
    apply sumInvestedBy_of_forall_ne
    intro o ho
    rw [fallbackAlloc_action _ _ _ _ _ o ho]
    simp
  have hC_buy : sumInvestedBy PAction.buy NE.1 = NE.2 := by
    rw [sumInvestedBy_of_forall_eq _ _ hallbuy_NE, hNE.2.2]
    simp [sumInvested]
  have hB_2d : ∀ s ∈ (heldStocks ++ newEntries).dedup,
      TwoDec ((lookupQ latestClose s).getD 0) := by
    intro s hs
    obtain ⟨p, hl, -, hdec⟩ := hpuniv s (List.mem_dedup.mp hs)
    rw [hl]
    exact hdec
  have hB_buy : sumInvestedBy PAction.buy B ≤ F - NE.2 := by
    rw [hBdef, sumInvestedBy_of_forall_eq _ _ (fallbackAlloc_action _ _ _ _ _), hHE]
    rw [show sumInvested ([] : List Order) = 0 from by simp [sumInvested], add_zero]
    have h := fallbackAlloc_spend (F - NE.2)
      ((NE.1 ++ ([] : List Order) ++ A).map (·.symbol))
      ((heldStocks ++ newEntries).dedup) latestClose rankMap hB_2d
    rw [max_eq_right (by linarith [hNE.2.1] : (0 : ℚ) ≤ F - NE.2)] at h
    exact h
  have hHE_sell : sumInvestedBy PAction.sell HE = 0 := by
    rw [hHE]; simp [sumInvestedBy]
  have hHE_buy : sumInvestedBy PAction.buy HE = 0 := by
    rw [hHE]; simp [sumInvestedBy]
  refine ⟨?_, ?_, ?_⟩
  · rw [hsum, hA_sell, hB_sell, hC_sell, hHE_sell, hE_sell]
    ring
  · rw [hsum, hA_buy, hC_buy, hHE_buy, hE_buy]
    linarith [hB_buy, hNE.2.1]
  · ring

/-- C1 witness: two previous holdings A (2 × 10) and B (1 × 20), A held,
C a new entry at price 5, B removed, zero transaction cost. -/
theorem rebalance_capital_conservation_witness :
    sumInvestedBy PAction.sell (planPortfolioRebalance ["A"] ["C"] ["B"]
        [⟨"A", 2, 5⟩, ⟨"B", 1, 15⟩] [("A", 10), ("B", 20), ("C", 5)]
        (fun _ => none) 0) =
      rebalanceTotalSell (rebalanceDfRemoved [⟨"A", 2, 5⟩, ⟨"B", 1, 15⟩]
        [("A", 10), ("B", 20), ("C", 5)] ["B"]) ∧
    sumInvestedBy PAction.buy (planPortfolioRebalance ["A"] ["C"] ["B"]
        [⟨"A", 2, 5⟩, ⟨"B", 1, 15⟩] [("A", 10), ("B", 20), ("C", 5)]
        (fun _ => none) 0) ≤
      rebalanceFreed (rebalanceDfRemoved [⟨"A", 2, 5⟩, ⟨"B", 1, 15⟩]
        [("A", 10), ("B", 20), ("C", 5)] ["B"]) 0 ∧
    sumInvestedBy PAction.buy (planPortfolioRebalance ["A"] ["C"] ["B"]
        [⟨"A", 2, 5⟩, ⟨"B", 1, 15⟩] [("A", 10), ("B", 20), ("C", 5)]
        (fun _ => none) 0) +
      (rebalanceFreed (rebalanceDfRemoved [⟨"A", 2, 5⟩, ⟨"B", 1, 15⟩]
          [("A", 10), ("B", 20), ("C", 5)] ["B"]) 0 -
        sumInvestedBy PAction.buy (planPortfolioRebalance ["A"] ["C"] ["B"]
          [⟨"A", 2, 5⟩, ⟨"B", 1, 15⟩] [("A", 10), ("B", 20), ("C", 5)]
          (fun _ => none) 0)) =
      rebalanceFreed (rebalanceDfRemoved [⟨"A", 2, 5⟩, ⟨"B", 1, 15⟩]
        [("A", 10), ("B", 20), ("C", 5)] ["B"]) 0 :=
  rebalance_capital_conservation ["A"] ["C"] ["B"]
    [⟨"A", 2, 5⟩, ⟨"B", 1, 15⟩] [("A", 10), ("B", 20), ("C", 5)] (fun _ => none) 0
    (by simp)
    (Or.inl (by simp))
    (by decide)
    (by decide)
    (by
      intro h hm
      fin_cases hm
      · exact ⟨10, rfl, by norm_num, by exact_mod_cast twoDec_intCast 10⟩
      · exact ⟨20, rfl, by norm_num, by exact_mod_cast twoDec_intCast 20⟩)
    (by
      intro s hs
      fin_cases hs
      · exact ⟨10, rfl, by norm_num, by exact_mod_cast twoDec_intCast 10⟩
      · exact ⟨5, rfl, by norm_num, by exact_mod_cast twoDec_intCast 5⟩)
